import Mathlib

/-!
# String reversal in `main.go`

A shallow embedding of the three reversal functions `ReverseV1`, `ReverseV2`,
`ReverseV3` of `main.go`, together with the pieces of the Go runtime and of
`unicode/utf8` they call:

* `[]rune(s)` is `runtime.stringtoslicerune`, a `range` loop over the string
  that decodes with `runtime.decoderune`;
* `string(r)` for `r []rune` is `runtime.slicerunetostring`, which encodes
  every rune with `runtime.encoderune`;
* `utf8.ValidString` is the table driven validator of `unicode/utf8`.

A Go string is its sequence of bytes, a byte is a `Fin 256`.  An index
expression that is out of range panics in Go; in the embedding the function
then has no result (`none`).  The `fmt.Printf` calls of `ReverseV2` write to
the console only and are left out.
-/

namespace GoFuzz

/-! ## Bytes, strings, runes -/

/-- A Go `byte`. -/
abbrev Byte := Fin 256

/-- A Go `string`: an immutable sequence of bytes. -/
abbrev GoString := List Byte

/-- A Go `rune`.  Every rune of this program comes out of the decoder, which
only produces values between `0` and `0x1FFFFF`, so runes are naturals and the
`uint32(r)` conversion of the encoder is the identity. -/
abbrev Rune := Nat

/-- The Go conversion `byte(n)`: keep the low eight bits. -/
def toByte (n : Nat) : Byte := ⟨n % 256, Nat.mod_lt n (by decide)⟩

/-- The value of `s[i]` as a number, for an index already known to be in
range (the callers check `len(s)` first, as the Go code does). -/
def byteAt (s : GoString) (i : Nat) : Nat := (s.getD i 0).val

/-! ## Constants of `runtime/utf8.go` and `unicode/utf8` -/

abbrev runeError : Rune := 0xFFFD
abbrev runeSelf : Nat := 0x80
abbrev maxRune : Rune := 0x10FFFF
abbrev surrogateMin : Rune := 0xD800
abbrev surrogateMax : Rune := 0xDFFF
abbrev tx : Nat := 0x80
abbrev t2 : Nat := 0xC0
abbrev t3 : Nat := 0xE0
abbrev t4 : Nat := 0xF0
abbrev t5 : Nat := 0xF8
abbrev maskx : Nat := 0x3F
abbrev mask2 : Nat := 0x1F
abbrev mask3 : Nat := 0x0F
abbrev mask4 : Nat := 0x07
abbrev rune1Max : Rune := (1 <<< 7) - 1
abbrev rune2Max : Rune := (1 <<< 11) - 1
abbrev rune3Max : Rune := (1 <<< 16) - 1
abbrev locb : Nat := 0x80
abbrev hicb : Nat := 0xBF

/-! ## `runtime.decoderune` and the `range` loop of `[]rune(s)` -/

/-- The function `decoderune(s, k)` of `runtime/utf8.go`: the rune that starts
at byte `k` of `s` and the index just after it; `(runeError, k + 1)` for any
malformed or truncated sequence. -/
def decoderune (s : GoString) (k : Nat) : Rune × Nat :=
  if k ≥ s.length then (runeError, k + 1)
  else
    let t := s.drop k
    let t0 := byteAt t 0
    if t2 ≤ t0 ∧ t0 < t3 then
      if t.length > 1 ∧ (locb ≤ byteAt t 1 ∧ byteAt t 1 ≤ hicb) then
        let r := ((t0 &&& mask2) <<< 6) ||| (byteAt t 1 &&& maskx)
        if rune1Max < r then (r, k + 2) else (runeError, k + 1)
      else (runeError, k + 1)
    else if t3 ≤ t0 ∧ t0 < t4 then
      if t.length > 2 ∧ (locb ≤ byteAt t 1 ∧ byteAt t 1 ≤ hicb)
          ∧ (locb ≤ byteAt t 2 ∧ byteAt t 2 ≤ hicb) then
        let r := (((t0 &&& mask3) <<< 12) ||| ((byteAt t 1 &&& maskx) <<< 6))
          ||| (byteAt t 2 &&& maskx)
        if rune2Max < r ∧ ¬ (surrogateMin ≤ r ∧ r ≤ surrogateMax) then (r, k + 3)
        else (runeError, k + 1)
      else (runeError, k + 1)
    else if t4 ≤ t0 ∧ t0 < t5 then
      if t.length > 3 ∧ (locb ≤ byteAt t 1 ∧ byteAt t 1 ≤ hicb)
          ∧ (locb ≤ byteAt t 2 ∧ byteAt t 2 ≤ hicb)
          ∧ (locb ≤ byteAt t 3 ∧ byteAt t 3 ≤ hicb) then
        let r := ((((t0 &&& mask4) <<< 18) ||| ((byteAt t 1 &&& maskx) <<< 12))
          ||| ((byteAt t 2 &&& maskx) <<< 6)) ||| (byteAt t 3 &&& maskx)
        if rune3Max < r ∧ r ≤ maxRune then (r, k + 4) else (runeError, k + 1)
      else (runeError, k + 1)
    else (runeError, k + 1)

/-- One iteration of `for _, r := range s` at byte index `k < len(s)`: a byte
below `runeSelf` is its own rune, anything else goes through `decoderune`.
Returns the rune and the next index. -/
def rangeStep (s : GoString) (k : Nat) : Rune × Nat :=
  if byteAt s k < runeSelf then (byteAt s k, k + 1) else decoderune s k

/-- The `range` loop over `s` from index `k`, collecting the runes in order.
The first argument bounds the number of iterations. -/
def rangeLoop (s : GoString) : Nat → Nat → List Rune
  | 0, _ => []
  | fuel + 1, k =>
    if k < s.length then (rangeStep s k).1 :: rangeLoop s fuel (rangeStep s k).2
    else []

/-- The conversion `[]rune(s)` (`runtime.stringtoslicerune`).  Every iteration
advances by at least one byte, so `len(s)` iterations are enough. -/
def stringtoslicerune (s : GoString) : List Rune := rangeLoop s s.length 0

/-! ## `runtime.encoderune` and `string(r)` -/

/-- The three byte form written by `encoderune`. -/
def encode3 (r : Rune) : List Byte :=
  [toByte (t3 ||| ((r >>> 12) % 256)),
   toByte (tx ||| (((r >>> 6) % 256) &&& maskx)),
   toByte (tx ||| ((r % 256) &&& maskx))]

/-- The function `encoderune` of `runtime/utf8.go`, returning the bytes it
writes.  A rune above `maxRune` or in the surrogate range is replaced by
`runeError` and falls through to the three byte case. -/
def encoderune (r : Rune) : List Byte :=
  if r ≤ rune1Max then [toByte r]
  else if r ≤ rune2Max then
    [toByte (t2 ||| ((r >>> 6) % 256)), toByte (tx ||| ((r % 256) &&& maskx))]
  else if r > maxRune ∨ (surrogateMin ≤ r ∧ r ≤ surrogateMax) then encode3 runeError
  else if r ≤ rune3Max then encode3 r
  else
    [toByte (t4 ||| ((r >>> 18) % 256)),
     toByte (tx ||| (((r >>> 12) % 256) &&& maskx)),
     toByte (tx ||| (((r >>> 6) % 256) &&& maskx)),
     toByte (tx ||| ((r % 256) &&& maskx))]

/-- The conversion `string(r)` for `r []rune` (`runtime.slicerunetostring`):
the encodings of the runes, concatenated. -/
def slicerunetostring : List Rune → GoString
  | [] => []
  | r :: rs => encoderune r ++ slicerunetostring rs

/-! ## `utf8.ValidString` -/

/-- The marker `xx` of the table `first`: an illegal starter byte. -/
abbrev xx : Nat := 0xF1
/-- The marker `as` of the table `first`: an ASCII byte. -/
abbrev as_ : Nat := 0xF0
abbrev s1 : Nat := 0x02
abbrev s2 : Nat := 0x13
abbrev s3 : Nat := 0x03
abbrev s4 : Nat := 0x23
abbrev s5 : Nat := 0x34
abbrev s6 : Nat := 0x04
abbrev s7 : Nat := 0x44

/-- The table `first` of `unicode/utf8`: information about the first byte of
an encoding, one entry per byte value. -/
def first : List Nat :=
  [as_, as_, as_, as_, as_, as_, as_, as_, as_, as_, as_, as_, as_, as_, as_, as_,
   as_, as_, as_, as_, as_, as_, as_, as_, as_, as_, as_, as_, as_, as_, as_, as_,
   as_, as_, as_, as_, as_, as_, as_, as_, as_, as_, as_, as_, as_, as_, as_, as_,
   as_, as_, as_, as_, as_, as_, as_, as_, as_, as_, as_, as_, as_, as_, as_, as_,
   as_, as_, as_, as_, as_, as_, as_, as_, as_, as_, as_, as_, as_, as_, as_, as_,
   as_, as_, as_, as_, as_, as_, as_, as_, as_, as_, as_, as_, as_, as_, as_, as_,
   as_, as_, as_, as_, as_, as_, as_, as_, as_, as_, as_, as_, as_, as_, as_, as_,
   as_, as_, as_, as_, as_, as_, as_, as_, as_, as_, as_, as_, as_, as_, as_, as_,
   xx, xx, xx, xx, xx, xx, xx, xx, xx, xx, xx, xx, xx, xx, xx, xx,
   xx, xx, xx, xx, xx, xx, xx, xx, xx, xx, xx, xx, xx, xx, xx, xx,
   xx, xx, xx, xx, xx, xx, xx, xx, xx, xx, xx, xx, xx, xx, xx, xx,
   xx, xx, xx, xx, xx, xx, xx, xx, xx, xx, xx, xx, xx, xx, xx, xx,
   xx, xx, s1, s1, s1, s1, s1, s1, s1, s1, s1, s1, s1, s1, s1, s1,
   s1, s1, s1, s1, s1, s1, s1, s1, s1, s1, s1, s1, s1, s1, s1, s1,
   s2, s3, s3, s3, s3, s3, s3, s3, s3, s3, s3, s3, s3, s4, s3, s3,
   s5, s6, s6, s6, s7, xx, xx, xx, xx, xx, xx, xx, xx, xx, xx, xx]

/-- The type `acceptRange` of `unicode/utf8`: the range of valid values for
the second byte of an encoding. -/
structure AcceptRange where
  lo : Nat
  hi : Nat

/-- The table `acceptRanges` of `unicode/utf8`; the Go array has sixteen
entries, of which those after the fifth are zero. -/
def acceptRanges (i : Nat) : AcceptRange :=
  [⟨locb, hicb⟩, ⟨0xA0, hicb⟩, ⟨locb, 0x9F⟩, ⟨0x90, hicb⟩, ⟨locb, 0x8F⟩].getD i ⟨0, 0⟩

/-- One iteration of the main loop of `utf8.ValidString` at index `i < len(s)`:
`none` when the loop returns `false`, otherwise the next index. -/
def validStep (s : GoString) (i : Nat) : Option Nat :=
  let n := s.length
  let si := byteAt s i
  if si < runeSelf then some (i + 1)
  else
    let x := first.getD si xx
    if x = xx then none
    else
      let size := x &&& 7
      if i + size > n then none
      else
        let accept := acceptRanges (x >>> 4)
        if byteAt s (i + 1) < accept.lo ∨ accept.hi < byteAt s (i + 1) then none
        else if size = 2 then some (i + size)
        else if byteAt s (i + 2) < locb ∨ hicb < byteAt s (i + 2) then none
        else if size = 3 then some (i + size)
        else if byteAt s (i + 3) < locb ∨ hicb < byteAt s (i + 3) then none
        else some (i + size)

/-- The main loop of `utf8.ValidString` from index `i`.  The first argument
bounds the number of iterations. -/
def validLoop (s : GoString) : Nat → Nat → Bool
  | 0, i => decide (s.length ≤ i)
  | fuel + 1, i =>
    if i < s.length then
      match validStep s i with
      | none => false
      | some i' => validLoop s fuel i'
    else true

/-- The fast path of `utf8.ValidString`: drop leading blocks of eight bytes
as long as none of the eight has its high bit set. -/
def skipASCII : GoString → GoString
  | b0 :: b1 :: b2 :: b3 :: b4 :: b5 :: b6 :: b7 :: rest =>
    let first32 := ((b0.val ||| (b1.val <<< 8)) ||| (b2.val <<< 16)) ||| (b3.val <<< 24)
    let second32 := ((b4.val ||| (b5.val <<< 8)) ||| (b6.val <<< 16)) ||| (b7.val <<< 24)
    if (first32 ||| second32) &&& 0x80808080 ≠ 0 then
      b0 :: b1 :: b2 :: b3 :: b4 :: b5 :: b6 :: b7 :: rest
    else skipASCII rest
  | s => s

/-- The function `utf8.ValidString`: whether `s` consists entirely of valid
UTF-8 encoded runes. -/
def ValidString (s : GoString) : Bool :=
  validLoop (skipASCII s) (skipASCII s).length 0

/-! ## The swap loop and the three reversal functions of `main.go` -/

/-- The variables of the loop
`for i, j := 0, len(b)-1; i < len(b)/2; i, j = i+1, j-1`. -/
structure SwapState (α : Type) where
  b : List α
  i : Int
  j : Int

/-- The loop condition `i < len(b)/2`. -/
def swapCond {α : Type} (st : SwapState α) : Bool :=
  decide (st.i < (st.b.length : Int) / 2)

/-- The loop body `b[i], b[j] = b[j], b[i]` followed by the post statement
`i, j = i+1, j-1`.  Both operands are read before either is written.  An index
out of range is a run-time panic: no next state. -/
def swapBody {α : Type} (st : SwapState α) : Option (SwapState α) :=
  if 0 ≤ st.i ∧ st.i < st.b.length ∧ 0 ≤ st.j ∧ st.j < st.b.length then
    match st.b[st.i.toNat]?, st.b[st.j.toNat]? with
    | some x, some y =>
      some ⟨(st.b.set st.i.toNat y).set st.j.toNat x, st.i + 1, st.j - 1⟩
    | _, _ => none
  else none

/-- The loop, run for at most the given number of iterations; `none` when an
index is out of range or the bound is reached with the condition still true. -/
def swapLoop {α : Type} : Nat → SwapState α → Option (List α)
  | 0, st => if swapCond st then none else some st.b
  | fuel + 1, st =>
    if swapCond st then
      match swapBody st with
      | none => none
      | some st' => swapLoop fuel st'
    else some st.b

/-- The loop of the three functions, from its initial state
`i, j := 0, len(b)-1`. -/
def reverseSlice {α : Type} (b : List α) : Option (List α) :=
  swapLoop b.length ⟨b, 0, (b.length : Int) - 1⟩

/-- The function `ReverseV1` of `main.go`: reverse the bytes. -/
def ReverseV1 (s : GoString) : Option GoString :=
  reverseSlice s

/-- The function `ReverseV2` of `main.go`: decode to runes, reverse the runes,
encode. -/
def ReverseV2 (s : GoString) : Option GoString :=
  (reverseSlice (stringtoslicerune s)).map slicerunetostring

/-- A Go `error` value made by `errors.New`. -/
structure GoError where
  msg : String
  deriving DecidableEq, Repr

/-- The function `ReverseV3` of `main.go`: the pair of the returned string and
the returned error (`none` is `nil`). -/
def ReverseV3 (s : GoString) : Option (GoString × Option GoError) :=
  if !ValidString s then some (s, some ⟨"input is not valid UTF-8"⟩)
  else (reverseSlice (stringtoslicerune s)).map fun r => (slicerunetostring r, none)

/-- The function `Reverse` of `main.go`. -/
def Reverse (s : GoString) : Option GoString :=
  ReverseV2 s

/-! ## Definitions used in the proofs -/

/-- The contents of the slice after `m` iterations of the swap loop on `orig`:
the outer `m` positions on either side hold the mirrored element. -/
def swapped {α : Type} (orig : List α) (m k : Nat) : Option α :=
  if k < m ∨ orig.length ≤ k + m then orig[orig.length - 1 - k]? else orig[k]?

/-- A Unicode scalar value: a code point that is not a surrogate. -/
def isScalar (r : Rune) : Bool :=
  decide (r < surrogateMin ∨ (surrogateMax < r ∧ r ≤ maxRune))

/-- What `encoderune` makes of a rune: itself when it is a scalar value,
`runeError` otherwise. -/
def sanitize (r : Rune) : Rune := if isScalar r then r else runeError

/-- The two byte case of `decoderune` as arithmetic. -/
def step2 (n b0 b1 : Nat) : Nat × Nat :=
  if n > 1 ∧ (128 ≤ b1 ∧ b1 ≤ 191) then
    if 127 < b0 % 32 * 64 + b1 % 64 then (b0 % 32 * 64 + b1 % 64, 2) else (65533, 1)
  else (65533, 1)

/-- The three byte case of `decoderune` as arithmetic. -/
def step3 (n b0 b1 b2 : Nat) : Nat × Nat :=
  if n > 2 ∧ (128 ≤ b1 ∧ b1 ≤ 191) ∧ (128 ≤ b2 ∧ b2 ≤ 191) then
    if 2047 < b0 % 16 * 4096 + b1 % 64 * 64 + b2 % 64
        ∧ ¬ (55296 ≤ b0 % 16 * 4096 + b1 % 64 * 64 + b2 % 64
          ∧ b0 % 16 * 4096 + b1 % 64 * 64 + b2 % 64 ≤ 57343) then
      (b0 % 16 * 4096 + b1 % 64 * 64 + b2 % 64, 3)
    else (65533, 1)
  else (65533, 1)

/-- The four byte case of `decoderune` as arithmetic. -/
def step4 (n b0 b1 b2 b3 : Nat) : Nat × Nat :=
  if n > 3 ∧ (128 ≤ b1 ∧ b1 ≤ 191) ∧ (128 ≤ b2 ∧ b2 ≤ 191) ∧ (128 ≤ b3 ∧ b3 ≤ 191) then
    if 65535 < b0 % 8 * 262144 + b1 % 64 * 4096 + b2 % 64 * 64 + b3 % 64
        ∧ b0 % 8 * 262144 + b1 % 64 * 4096 + b2 % 64 * 64 + b3 % 64 ≤ 1114111 then
      (b0 % 8 * 262144 + b1 % 64 * 4096 + b2 % 64 * 64 + b3 % 64, 4)
    else (65533, 1)
  else (65533, 1)

/-- The step `rangeStep s 0` as arithmetic on the length of `s` and the values
of its first four bytes. -/
def stepArith (n b0 b1 b2 b3 : Nat) : Nat × Nat :=
  if b0 < 128 then (b0, 1)
  else if 192 ≤ b0 ∧ b0 < 224 then step2 n b0 b1
  else if 224 ≤ b0 ∧ b0 < 240 then step3 n b0 b1 b2
  else if 240 ≤ b0 ∧ b0 < 248 then step4 n b0 b1 b2 b3
  else (65533, 1)

/-- The checks of `validStep` once the table entry of the first byte is known
to be of the given size with the given range for the second byte. -/
def validTail (size lo hi n b1 b2 b3 : Nat) : Option Nat :=
  if size > n then none
  else if b1 < lo ∨ hi < b1 then none
  else if size = 2 then some size
  else if b2 < 128 ∨ 191 < b2 then none
  else if size = 3 then some size
  else if b3 < 128 ∨ 191 < b3 then none
  else some size

/-- The step `validStep s 0` as a function of the length of `s` and the values
of its first four bytes. -/
def validArith (n b0 b1 b2 b3 : Nat) : Option Nat :=
  if b0 < runeSelf then some 1
  else
    let x := first.getD b0 xx
    if x = xx then none
    else
      let size := x &&& 7
      if size > n then none
      else
        let accept := acceptRanges (x >>> 4)
        if b1 < accept.lo ∨ accept.hi < b1 then none
        else if size = 2 then some size
        else if b2 < locb ∨ hicb < b2 then none
        else if size = 3 then some size
        else if b3 < locb ∨ hicb < b3 then none
        else some size

/-- The main loop of `utf8.ValidString` run on the whole string. -/
def validAll (s : GoString) : Bool := validLoop s s.length 0

/-- The error value returned by `ReverseV3`. -/
def errInvalid : GoError := ⟨"input is not valid UTF-8"⟩

/-- Well-formed UTF-8: the encoding of a sequence of Unicode scalar values. -/
def IsUTF8 (s : GoString) : Prop :=
  ∃ rs : List Rune, (∀ r ∈ rs, isScalar r = true) ∧ slicerunetostring rs = s

/-- The swap loop run for at most the given number of iterations, recording
the state at the start of every iteration whose body is executed, next to the
result of `swapLoop`. -/
def swapRun {α : Type} : Nat → SwapState α → List (SwapState α) × Option (List α)
  | 0, st => if swapCond st then ([], none) else ([], some st.b)
  | fuel + 1, st =>
    if swapCond st then
      match swapBody st with
      | none => ([st], none)
      | some st' => (st :: (swapRun fuel st').1, (swapRun fuel st').2)
    else ([], some st.b)

/-- The string `"hello"`. -/
def strHello : GoString := [0x68, 0x65, 0x6C, 0x6C, 0x6F]
/-- The string `"olleh"`. -/
def strOlleh : GoString := [0x6F, 0x6C, 0x6C, 0x65, 0x68]
/-- The string `"The quick brown fox jumped over the lazy dog"` of `main`. -/
def strFox : GoString :=
  [0x54, 0x68, 0x65, 0x20, 0x71, 0x75, 0x69, 0x63, 0x6B, 0x20, 0x62, 0x72, 0x6F, 0x77, 0x6E, 0x20, 0x66, 0x6F, 0x78, 0x20, 0x6A, 0x75, 0x6D, 0x70, 0x65, 0x64, 0x20, 0x6F, 0x76, 0x65, 0x72, 0x20, 0x74, 0x68, 0x65, 0x20, 0x6C, 0x61, 0x7A, 0x79, 0x20, 0x64, 0x6F, 0x67]
/-- The string `"god yzal eht revo depmuj xof nworb kciuq ehT"`. -/
def strFoxReversed : GoString :=
  [0x67, 0x6F, 0x64, 0x20, 0x79, 0x7A, 0x61, 0x6C, 0x20, 0x65, 0x68, 0x74, 0x20, 0x72, 0x65, 0x76, 0x6F, 0x20, 0x64, 0x65, 0x70, 0x6D, 0x75, 0x6A, 0x20, 0x78, 0x6F, 0x66, 0x20, 0x6E, 0x77, 0x6F, 0x72, 0x62, 0x20, 0x6B, 0x63, 0x69, 0x75, 0x71, 0x20, 0x65, 0x68, 0x54]

/-! ## The swap loop reverses the slice -/

theorem swapped_full {α : Type} (orig : List α) (m : Nat) (hm : m = orig.length / 2)
    (b : List α) (hb : ∀ k, k < orig.length → b[k]? = swapped orig m k)
    (hlen : b.length = orig.length) : b = orig.reverse := by
  apply List.ext_getElem?
  intro k
  by_cases hk : k < orig.length
  · rw [hb k hk, List.getElem?_reverse hk]
    unfold swapped
    split
    · rfl
    · have : k = orig.length - 1 - k := by omega
      rw [← this]
  · rw [List.getElem?_eq_none (by omega), List.getElem?_eq_none (by simp; omega)]

theorem swapLoop_spec {α : Type} (orig : List α) :
    ∀ (fuel m : Nat) (b : List α) (i j : Int), i = (m : Int) →
      j = (orig.length : Int) - 1 - m → b.length = orig.length →
      m ≤ orig.length / 2 → orig.length / 2 - m ≤ fuel →
      (∀ k, k < orig.length → b[k]? = swapped orig m k) →
      swapLoop fuel ⟨b, i, j⟩ = some orig.reverse := by
  intro fuel
  induction fuel with
  | zero =>
    intro m b i j hi hj hlen hm hfuel hb
    have hc : swapCond (⟨b, i, j⟩ : SwapState α) = false := by
      simp only [swapCond, hlen, decide_eq_false_iff_not]; omega
    simp only [swapLoop, hc]
    simp
    exact swapped_full orig m (by omega) b hb hlen
  | succ fuel ih =>
    intro m b i j hi hj hlen hm hfuel hb
    by_cases hc : swapCond (⟨b, i, j⟩ : SwapState α) = true
    · have hlt : m < orig.length / 2 := by
        simp only [swapCond, hlen, decide_eq_true_eq] at hc; omega
      have hit : i.toNat = m := by omega
      have hjt : j.toNat = orig.length - 1 - m := by omega
      have hbm : b[m]? = orig[m]? := by
        rw [hb m (by omega)]; unfold swapped; rw [if_neg (by omega)]
      have hbj : b[orig.length - 1 - m]? = orig[orig.length - 1 - m]? := by
        rw [hb _ (by omega)]; unfold swapped; rw [if_neg (by omega)]
      obtain ⟨x, hx⟩ : ∃ x, orig[m]? = some x :=
        ⟨orig.get ⟨m, by omega⟩, by simp [List.getElem?_eq_getElem, show m < orig.length by omega]⟩
      obtain ⟨y, hy⟩ : ∃ y, orig[orig.length - 1 - m]? = some y :=
        ⟨orig.get ⟨orig.length - 1 - m, by omega⟩, by
          simp [List.getElem?_eq_getElem, show orig.length - 1 - m < orig.length by omega]⟩
      have hbody : swapBody (⟨b, i, j⟩ : SwapState α)
          = some ⟨(b.set m y).set (orig.length - 1 - m) x, i + 1, j - 1⟩ := by
        simp only [swapBody, hit, hjt, hbm, hbj, hx, hy, hlen]
        rw [if_pos (by omega)]
      simp only [swapLoop, hc, hbody, if_true]
      apply ih (m + 1) _ _ _ (by omega) (by omega) (by simp [hlen]) (by omega) (by omega)
      intro k hk
      rw [List.getElem?_set, List.getElem?_set]
      unfold swapped
      by_cases h1 : orig.length - 1 - m = k
      · rw [if_pos h1, if_pos (by simp [hlen]; omega), if_pos (by omega), ← hx]
        congr 1; omega
      · rw [if_neg h1]
        by_cases h2 : m = k
        · rw [if_pos h2, if_pos (by omega), if_pos (by omega), ← hy, h2]
        · rw [if_neg h2, hb k hk]
          unfold swapped
          by_cases h3 : k < m ∨ orig.length ≤ k + m
          · rw [if_pos h3, if_pos (by omega)]
          · rw [if_neg h3, if_neg (by omega)]
    · have hcf : swapCond (⟨b, i, j⟩ : SwapState α) = false := by simpa using hc
      have hge : orig.length / 2 ≤ m := by
        simp only [swapCond, hlen, decide_eq_false_iff_not] at hcf; omega
      simp only [swapLoop, hcf]
      simp
      exact swapped_full orig m (by omega) b hb hlen

theorem reverseSlice_eq {α : Type} (b : List α) : reverseSlice b = some b.reverse := by
  unfold reverseSlice
  apply swapLoop_spec b b.length 0 b 0 _ rfl (by simp) rfl (by omega) (by omega)
  intro k hk
  unfold swapped
  rw [if_neg (by omega)]
/-! ## Bit operations as arithmetic -/

theorem toByte_val (n : Nat) : (toByte n).val = n % 256 := rfl

theorem byteAt_lt (s : GoString) (i : Nat) : byteAt s i < 256 := (s.getD i 0).isLt

@[simp] theorem byteAt_cons_zero (b : Byte) (s : GoString) : byteAt (b :: s) 0 = b.val := rfl
@[simp] theorem byteAt_cons_succ (b : Byte) (s : GoString) (i : Nat) :
    byteAt (b :: s) (i + 1) = byteAt s i := rfl

theorem and_maskx (x : Nat) : x &&& 0x3F = x % 64 := Nat.and_pow_two_sub_one_eq_mod x 6
theorem and_mask2 (x : Nat) : x &&& 0x1F = x % 32 := Nat.and_pow_two_sub_one_eq_mod x 5
theorem and_mask3 (x : Nat) : x &&& 0x0F = x % 16 := Nat.and_pow_two_sub_one_eq_mod x 4
theorem and_mask4 (x : Nat) : x &&& 0x07 = x % 8 := Nat.and_pow_two_sub_one_eq_mod x 3

theorem or_tx (x : Nat) : 0x80 ||| (x % 64) = 128 + x % 64 := by
  have h : ∀ y, y < 64 → 0x80 ||| y = 128 + y := by decide
  exact h _ (Nat.mod_lt _ (by decide))
theorem or_t2 (x : Nat) (hx : x < 32) : 0xC0 ||| x = 192 + x := by
  have h : ∀ y, y < 32 → 0xC0 ||| y = 192 + y := by decide
  exact h _ hx
theorem or_t3 (x : Nat) (hx : x < 16) : 0xE0 ||| x = 224 + x := by
  have h : ∀ y, y < 16 → 0xE0 ||| y = 224 + y := by decide
  exact h _ hx
theorem or_t4 (x : Nat) (hx : x < 8) : 0xF0 ||| x = 240 + x := by
  have h : ∀ y, y < 8 → 0xF0 ||| y = 240 + y := by decide
  exact h _ hx

theorem shl_or (a b : Nat) (i : Nat) (hb : b < 2 ^ i) : (a <<< i) ||| b = a * 2 ^ i + b := by
  rw [Nat.shiftLeft_eq, Nat.mul_comm, ← Nat.mul_add_lt_is_or hb]

theorem dec2_eq (a b : Nat) :
    ((a &&& mask2) <<< 6) ||| (b &&& maskx) = a % 32 * 64 + b % 64 := by
  simp only [mask2, maskx, and_mask2, and_maskx]
  rw [shl_or _ _ 6 (by have := Nat.mod_lt b (show 0 < 64 by decide); omega)]
  omega

theorem dec3_eq (a b c : Nat) :
    (((a &&& mask3) <<< 12) ||| ((b &&& maskx) <<< 6)) ||| (c &&& maskx)
      = a % 16 * 4096 + b % 64 * 64 + c % 64 := by
  simp only [mask3, maskx, and_mask3, and_maskx]
  rw [Nat.shiftLeft_eq (b % 64) 6,
    shl_or _ _ 12 (by have := Nat.mod_lt b (show 0 < 64 by decide); omega)]
  have e : a % 16 * 2 ^ 12 + b % 64 * 2 ^ 6 = (a % 16 * 64 + b % 64) <<< 6 := by
    rw [Nat.shiftLeft_eq]; omega
  rw [e, shl_or _ _ 6 (by have := Nat.mod_lt c (show 0 < 64 by decide); omega)]
  omega

theorem dec4_eq (a b c d : Nat) :
    ((((a &&& mask4) <<< 18) ||| ((b &&& maskx) <<< 12)) ||| ((c &&& maskx) <<< 6))
        ||| (d &&& maskx)
      = a % 8 * 262144 + b % 64 * 4096 + c % 64 * 64 + d % 64 := by
  simp only [mask4, maskx, and_mask4, and_maskx]
  rw [Nat.shiftLeft_eq (b % 64) 12, Nat.shiftLeft_eq (c % 64) 6,
    shl_or _ _ 18 (by have := Nat.mod_lt b (show 0 < 64 by decide); omega)]
  have e : a % 8 * 2 ^ 18 + b % 64 * 2 ^ 12 = (a % 8 * 64 + b % 64) <<< 12 := by
    rw [Nat.shiftLeft_eq]; omega
  rw [e, shl_or _ _ 12 (by have := Nat.mod_lt c (show 0 < 64 by decide); omega)]
  have e2 : (a % 8 * 64 + b % 64) * 2 ^ 12 + c % 64 * 2 ^ 6
      = ((a % 8 * 64 + b % 64) * 64 + c % 64) <<< 6 := by
    rw [Nat.shiftLeft_eq]; omega
  rw [e2, shl_or _ _ 6 (by have := Nat.mod_lt d (show 0 < 64 by decide); omega)]
  omega

/-- Value of a continuation byte written by `encoderune`. -/
theorem enc_cont (x : Nat) : (toByte (tx ||| ((x % 256) &&& maskx))).val = 128 + x % 64 := by
  have e : x % 256 % 64 = x % 64 := by omega
  rw [toByte_val, maskx, and_maskx, e, tx, or_tx]
  omega

theorem enc_lead2 (r : Nat) (h : r < 2048) :
    (toByte (t2 ||| ((r >>> 6) % 256))).val = 192 + r / 64 := by
  have e : r >>> 6 % 256 = r / 64 := by rw [Nat.shiftRight_eq_div_pow]; omega
  rw [toByte_val, e, t2, or_t2 _ (by omega)]; omega

theorem enc_lead3 (r : Nat) (h : r < 65536) :
    (toByte (t3 ||| ((r >>> 12) % 256))).val = 224 + r / 4096 := by
  have e : r >>> 12 % 256 = r / 4096 := by rw [Nat.shiftRight_eq_div_pow]; omega
  rw [toByte_val, e, t3, or_t3 _ (by omega)]; omega

theorem enc_lead4 (r : Nat) (h : r < 2097152) :
    (toByte (t4 ||| ((r >>> 18) % 256))).val = 240 + r / 262144 := by
  have e : r >>> 18 % 256 = r / 262144 := by rw [Nat.shiftRight_eq_div_pow]; omega
  rw [toByte_val, e, t4, or_t4 _ (by omega)]; omega



/-! ## One decoding step and one validation step as arithmetic -/

theorem rangeStep_zero (s : GoString) (hs : s ≠ []) :
    rangeStep s 0 = stepArith s.length (byteAt s 0) (byteAt s 1) (byteAt s 2) (byteAt s 3) := by
  have hlen : ¬ (0 ≥ s.length) := by
    cases s with
    | nil => exact absurd rfl hs
    | cons c t => simp
  simp only [rangeStep, decoderune, List.drop_zero, if_neg hlen, dec2_eq, dec3_eq, dec4_eq]
  rfl


theorem validStep_zero (s : GoString) :
    validStep s 0 = validArith s.length (byteAt s 0) (byteAt s 1) (byteAt s 2) (byteAt s 3) := by
  simp only [validStep, validArith, Nat.zero_add]

set_option maxRecDepth 100000 in
theorem first_lo : ∀ b, b < 194 → 128 ≤ b → first.getD b xx = xx := by decide
set_option maxRecDepth 100000 in
theorem first_s1 : ∀ b, b < 224 → 194 ≤ b → first.getD b xx = s1 := by decide
set_option maxRecDepth 100000 in
theorem first_s2 : ∀ b, b < 225 → 224 ≤ b → first.getD b xx = s2 := by decide
set_option maxRecDepth 100000 in
theorem first_s4 : ∀ b, b < 238 → 237 ≤ b → first.getD b xx = s4 := by decide
set_option maxRecDepth 100000 in
theorem first_s5 : ∀ b, b < 241 → 240 ≤ b → first.getD b xx = s5 := by decide
set_option maxRecDepth 100000 in
theorem first_s7 : ∀ b, b < 245 → 244 ≤ b → first.getD b xx = s7 := by decide
set_option maxRecDepth 100000 in
theorem first_s3a : ∀ b, b < 237 → 225 ≤ b → first.getD b xx = s3 := by decide
set_option maxRecDepth 100000 in
theorem first_s3b : ∀ b, b < 240 → 238 ≤ b → first.getD b xx = s3 := by decide
set_option maxRecDepth 100000 in
theorem first_s6 : ∀ b, b < 244 → 241 ≤ b → first.getD b xx = s6 := by decide
set_option maxRecDepth 100000 in
theorem first_hi : ∀ b, b < 256 → 245 ≤ b → first.getD b xx = xx := by decide

theorem validArith_of_first (x size lo hi n b0 b1 b2 b3 : Nat) (hb : 128 ≤ b0)
    (hf : first.getD b0 xx = x) (hx : x ≠ xx) (hsize : x &&& 7 = size)
    (hacc : acceptRanges (x >>> 4) = ⟨lo, hi⟩) :
    validArith n b0 b1 b2 b3 = validTail size lo hi n b1 b2 b3 := by
  simp only [validArith, hf, runeSelf, if_neg (show ¬ b0 < 128 by omega), if_neg hx, hsize, hacc]
  rfl

theorem validArith_of_xx (n b0 b1 b2 b3 : Nat) (hb : 128 ≤ b0)
    (hf : first.getD b0 xx = xx) : validArith n b0 b1 b2 b3 = none := by
  simp only [validArith, hf, runeSelf, if_neg (show ¬ b0 < 128 by omega), if_true]

theorem step2_pos (n b0 b1 : Nat) (h : n > 1 ∧ (128 ≤ b1 ∧ b1 ≤ 191))
    (hr : 127 < b0 % 32 * 64 + b1 % 64) :
    step2 n b0 b1 = (b0 % 32 * 64 + b1 % 64, 2) := by
  simp only [step2, if_pos h, if_pos hr]

theorem step2_neg (n b0 b1 : Nat)
    (h : ¬ (n > 1 ∧ (128 ≤ b1 ∧ b1 ≤ 191)) ∨ ¬ 127 < b0 % 32 * 64 + b1 % 64) :
    step2 n b0 b1 = (65533, 1) := by
  unfold step2
  rcases h with h | h
  · rw [if_neg h]
  · rw [if_neg h]; split <;> rfl

theorem step3_pos (n b0 b1 b2 : Nat)
    (h : n > 2 ∧ (128 ≤ b1 ∧ b1 ≤ 191) ∧ (128 ≤ b2 ∧ b2 ≤ 191))
    (hr : 2047 < b0 % 16 * 4096 + b1 % 64 * 64 + b2 % 64
        ∧ ¬ (55296 ≤ b0 % 16 * 4096 + b1 % 64 * 64 + b2 % 64
          ∧ b0 % 16 * 4096 + b1 % 64 * 64 + b2 % 64 ≤ 57343)) :
    step3 n b0 b1 b2 = (b0 % 16 * 4096 + b1 % 64 * 64 + b2 % 64, 3) := by
  simp only [step3, if_pos h, if_pos hr]

theorem step3_neg (n b0 b1 b2 : Nat)
    (h : ¬ (n > 2 ∧ (128 ≤ b1 ∧ b1 ≤ 191) ∧ (128 ≤ b2 ∧ b2 ≤ 191))
      ∨ ¬ (2047 < b0 % 16 * 4096 + b1 % 64 * 64 + b2 % 64
        ∧ ¬ (55296 ≤ b0 % 16 * 4096 + b1 % 64 * 64 + b2 % 64
          ∧ b0 % 16 * 4096 + b1 % 64 * 64 + b2 % 64 ≤ 57343))) :
    step3 n b0 b1 b2 = (65533, 1) := by
  unfold step3
  rcases h with h | h
  · rw [if_neg h]
  · rw [if_neg h]; split <;> rfl

theorem step4_pos (n b0 b1 b2 b3 : Nat)
    (h : n > 3 ∧ (128 ≤ b1 ∧ b1 ≤ 191) ∧ (128 ≤ b2 ∧ b2 ≤ 191) ∧ (128 ≤ b3 ∧ b3 ≤ 191))
    (hr : 65535 < b0 % 8 * 262144 + b1 % 64 * 4096 + b2 % 64 * 64 + b3 % 64
        ∧ b0 % 8 * 262144 + b1 % 64 * 4096 + b2 % 64 * 64 + b3 % 64 ≤ 1114111) :
    step4 n b0 b1 b2 b3
      = (b0 % 8 * 262144 + b1 % 64 * 4096 + b2 % 64 * 64 + b3 % 64, 4) := by
  simp only [step4, if_pos h, if_pos hr]

theorem step4_neg (n b0 b1 b2 b3 : Nat)
    (h : ¬ (n > 3 ∧ (128 ≤ b1 ∧ b1 ≤ 191) ∧ (128 ≤ b2 ∧ b2 ≤ 191) ∧ (128 ≤ b3 ∧ b3 ≤ 191))
      ∨ ¬ (65535 < b0 % 8 * 262144 + b1 % 64 * 4096 + b2 % 64 * 64 + b3 % 64
        ∧ b0 % 8 * 262144 + b1 % 64 * 4096 + b2 % 64 * 64 + b3 % 64 ≤ 1114111)) :
    step4 n b0 b1 b2 b3 = (65533, 1) := by
  unfold step4
  rcases h with h | h
  · rw [if_neg h]
  · rw [if_neg h]; split <;> rfl

theorem stepArith_two (n b0 b1 b2 b3 : Nat) (h : 192 ≤ b0 ∧ b0 < 224) :
    stepArith n b0 b1 b2 b3 = step2 n b0 b1 := by
  simp only [stepArith, if_neg (show ¬ b0 < 128 by omega), if_pos h]

theorem stepArith_three (n b0 b1 b2 b3 : Nat) (h : 224 ≤ b0 ∧ b0 < 240) :
    stepArith n b0 b1 b2 b3 = step3 n b0 b1 b2 := by
  simp only [stepArith, if_neg (show ¬ b0 < 128 by omega),
    if_neg (show ¬ (192 ≤ b0 ∧ b0 < 224) by omega), if_pos h]

theorem stepArith_four (n b0 b1 b2 b3 : Nat) (h : 240 ≤ b0 ∧ b0 < 248) :
    stepArith n b0 b1 b2 b3 = step4 n b0 b1 b2 b3 := by
  simp only [stepArith, if_neg (show ¬ b0 < 128 by omega),
    if_neg (show ¬ (192 ≤ b0 ∧ b0 < 224) by omega),
    if_neg (show ¬ (224 ≤ b0 ∧ b0 < 240) by omega), if_pos h]

theorem stepArith_bad (n b0 b1 b2 b3 : Nat) (h : (128 ≤ b0 ∧ b0 < 192) ∨ 248 ≤ b0) :
    stepArith n b0 b1 b2 b3 = (65533, 1) := by
  simp only [stepArith, if_neg (show ¬ b0 < 128 by omega),
    if_neg (show ¬ (192 ≤ b0 ∧ b0 < 224) by omega),
    if_neg (show ¬ (224 ≤ b0 ∧ b0 < 240) by omega),
    if_neg (show ¬ (240 ≤ b0 ∧ b0 < 248) by omega)]

theorem validTail2_pos (lo hi n b1 b2 b3 : Nat) (h : 2 ≤ n ∧ lo ≤ b1 ∧ b1 ≤ hi) :
    validTail 2 lo hi n b1 b2 b3 = some 2 := by
  simp only [validTail, if_neg (show ¬ 2 > n by omega),
    if_neg (show ¬ (b1 < lo ∨ hi < b1) by omega), if_true]

theorem validTail2_neg (lo hi n b1 b2 b3 : Nat) (h : ¬ (2 ≤ n ∧ lo ≤ b1 ∧ b1 ≤ hi)) :
    validTail 2 lo hi n b1 b2 b3 = none := by
  unfold validTail
  split_ifs <;> first | rfl | omega

theorem validTail3_pos (lo hi n b1 b2 b3 : Nat)
    (h : 3 ≤ n ∧ lo ≤ b1 ∧ b1 ≤ hi ∧ 128 ≤ b2 ∧ b2 ≤ 191) :
    validTail 3 lo hi n b1 b2 b3 = some 3 := by
  simp only [validTail, if_neg (show ¬ 3 > n by omega),
    if_neg (show ¬ (b1 < lo ∨ hi < b1) by omega), if_neg (show ¬ 3 = 2 by decide),
    if_neg (show ¬ (b2 < 128 ∨ 191 < b2) by omega), if_true]

theorem validTail3_neg (lo hi n b1 b2 b3 : Nat)
    (h : ¬ (3 ≤ n ∧ lo ≤ b1 ∧ b1 ≤ hi ∧ 128 ≤ b2 ∧ b2 ≤ 191)) :
    validTail 3 lo hi n b1 b2 b3 = none := by
  unfold validTail
  split_ifs <;> first | rfl | omega

theorem validTail4_pos (lo hi n b1 b2 b3 : Nat)
    (h : 4 ≤ n ∧ lo ≤ b1 ∧ b1 ≤ hi ∧ 128 ≤ b2 ∧ b2 ≤ 191 ∧ 128 ≤ b3 ∧ b3 ≤ 191) :
    validTail 4 lo hi n b1 b2 b3 = some 4 := by
  simp only [validTail, if_neg (show ¬ 4 > n by omega),
    if_neg (show ¬ (b1 < lo ∨ hi < b1) by omega), if_neg (show ¬ 4 = 2 by decide),
    if_neg (show ¬ (b2 < 128 ∨ 191 < b2) by omega), if_neg (show ¬ 4 = 3 by decide),
    if_neg (show ¬ (b3 < 128 ∨ 191 < b3) by omega)]

theorem validTail4_neg (lo hi n b1 b2 b3 : Nat)
    (h : ¬ (4 ≤ n ∧ lo ≤ b1 ∧ b1 ≤ hi ∧ 128 ≤ b2 ∧ b2 ≤ 191 ∧ 128 ≤ b3 ∧ b3 ≤ 191)) :
    validTail 4 lo hi n b1 b2 b3 = none := by
  unfold validTail
  split_ifs <;> first | rfl | omega

/-- The validator accepts with width `w` and the decoder yields a rune of the
same width. -/
theorem agree_pos (v : Option Nat) (p : Nat × Nat) (r w : Nat) (hv : v = some w)
    (hp : p = (r, w)) (hw : w ≠ 1) :
    v = if p = (65533, 1) then none else some p.2 := by
  subst hv hp
  rw [if_neg]
  intro h
  exact hw (congrArg Prod.snd h)

/-- The validator rejects and the decoder yields the error rune of width one. -/
theorem agree_neg (v : Option Nat) (p : Nat × Nat) (hv : v = none) (hp : p = (65533, 1)) :
    v = if p = (65533, 1) then none else some p.2 := by
  subst hv hp
  rw [if_pos rfl]

theorem validArith_eq_0 (n b0 b1 b2 b3 : Nat) (h : b0 < 128) :
    validArith n b0 b1 b2 b3 =
      if stepArith n b0 b1 b2 b3 = (65533, 1) then none
      else some (stepArith n b0 b1 b2 b3).2 := by
  simp only [validArith, stepArith, runeSelf, if_pos h]
  rw [if_neg]
  intro hc
  have h5 : b0 = 65533 := congrArg Prod.fst hc
  omega

theorem validArith_eq_1 (n b0 b1 b2 b3 : Nat) (h : 128 ≤ b0 ∧ b0 < 194) :
    validArith n b0 b1 b2 b3 =
      if stepArith n b0 b1 b2 b3 = (65533, 1) then none
      else some (stepArith n b0 b1 b2 b3).2 := by
  apply agree_neg _ _ (validArith_of_xx n b0 b1 b2 b3 h.1 (first_lo b0 h.2 h.1))
  by_cases hb : b0 < 192
  · exact stepArith_bad n b0 b1 b2 b3 (by omega)
  · rw [stepArith_two n b0 b1 b2 b3 (by omega)]
    apply step2_neg
    omega

theorem validArith_eq_2 (n b0 b1 b2 b3 : Nat) (h : 194 ≤ b0 ∧ b0 < 224) :
    validArith n b0 b1 b2 b3 =
      if stepArith n b0 b1 b2 b3 = (65533, 1) then none
      else some (stepArith n b0 b1 b2 b3).2 := by
  rw [validArith_of_first s1 2 128 191 n b0 b1 b2 b3 (by omega) (first_s1 b0 h.2 h.1)
    (by decide) (by decide) rfl, stepArith_two n b0 b1 b2 b3 (by omega)]
  by_cases hC : 2 ≤ n ∧ 128 ≤ b1 ∧ b1 ≤ 191
  · exact agree_pos _ _ _ 2 (validTail2_pos _ _ n b1 b2 b3 hC)
      (step2_pos n b0 b1 (by omega) (by omega)) (by decide)
  · exact agree_neg _ _ (validTail2_neg _ _ n b1 b2 b3 hC) (step2_neg n b0 b1 (by omega))

theorem validArith_eq_3 (n b0 b1 b2 b3 : Nat) (h : b0 = 224) :
    validArith n b0 b1 b2 b3 =
      if stepArith n b0 b1 b2 b3 = (65533, 1) then none
      else some (stepArith n b0 b1 b2 b3).2 := by
  rw [validArith_of_first s2 3 160 191 n b0 b1 b2 b3 (by omega) (first_s2 b0 (by omega) (by omega))
    (by decide) (by decide) rfl, stepArith_three n b0 b1 b2 b3 (by omega)]
  by_cases hC : 3 ≤ n ∧ 160 ≤ b1 ∧ b1 ≤ 191 ∧ 128 ≤ b2 ∧ b2 ≤ 191
  · exact agree_pos _ _ _ 3 (validTail3_pos _ _ n b1 b2 b3 hC)
      (step3_pos n b0 b1 b2 (by omega) (by omega)) (by decide)
  · exact agree_neg _ _ (validTail3_neg _ _ n b1 b2 b3 hC) (step3_neg n b0 b1 b2 (by omega))

theorem validArith_eq_4 (n b0 b1 b2 b3 : Nat) (h : 225 ≤ b0 ∧ b0 < 237) :
    validArith n b0 b1 b2 b3 =
      if stepArith n b0 b1 b2 b3 = (65533, 1) then none
      else some (stepArith n b0 b1 b2 b3).2 := by
  rw [validArith_of_first s3 3 128 191 n b0 b1 b2 b3 (by omega) (first_s3a b0 h.2 h.1)
    (by decide) (by decide) rfl, stepArith_three n b0 b1 b2 b3 (by omega)]
  by_cases hC : 3 ≤ n ∧ 128 ≤ b1 ∧ b1 ≤ 191 ∧ 128 ≤ b2 ∧ b2 ≤ 191
  · exact agree_pos _ _ _ 3 (validTail3_pos _ _ n b1 b2 b3 hC)
      (step3_pos n b0 b1 b2 (by omega) (by omega)) (by decide)
  · exact agree_neg _ _ (validTail3_neg _ _ n b1 b2 b3 hC) (step3_neg n b0 b1 b2 (by omega))

theorem validArith_eq_5 (n b0 b1 b2 b3 : Nat) (h : b0 = 237) :
    validArith n b0 b1 b2 b3 =
      if stepArith n b0 b1 b2 b3 = (65533, 1) then none
      else some (stepArith n b0 b1 b2 b3).2 := by
  rw [validArith_of_first s4 3 128 159 n b0 b1 b2 b3 (by omega) (first_s4 b0 (by omega) (by omega))
    (by decide) (by decide) rfl, stepArith_three n b0 b1 b2 b3 (by omega)]
  by_cases hC : 3 ≤ n ∧ 128 ≤ b1 ∧ b1 ≤ 159 ∧ 128 ≤ b2 ∧ b2 ≤ 191
  · exact agree_pos _ _ _ 3 (validTail3_pos _ _ n b1 b2 b3 hC)
      (step3_pos n b0 b1 b2 (by omega) (by omega)) (by decide)
  · exact agree_neg _ _ (validTail3_neg _ _ n b1 b2 b3 hC) (step3_neg n b0 b1 b2 (by omega))

theorem validArith_eq_6 (n b0 b1 b2 b3 : Nat) (h : 238 ≤ b0 ∧ b0 < 240) :
    validArith n b0 b1 b2 b3 =
      if stepArith n b0 b1 b2 b3 = (65533, 1) then none
      else some (stepArith n b0 b1 b2 b3).2 := by
  rw [validArith_of_first s3 3 128 191 n b0 b1 b2 b3 (by omega) (first_s3b b0 h.2 h.1)
    (by decide) (by decide) rfl, stepArith_three n b0 b1 b2 b3 (by omega)]
  by_cases hC : 3 ≤ n ∧ 128 ≤ b1 ∧ b1 ≤ 191 ∧ 128 ≤ b2 ∧ b2 ≤ 191
  · exact agree_pos _ _ _ 3 (validTail3_pos _ _ n b1 b2 b3 hC)
      (step3_pos n b0 b1 b2 (by omega) (by omega)) (by decide)
  · exact agree_neg _ _ (validTail3_neg _ _ n b1 b2 b3 hC) (step3_neg n b0 b1 b2 (by omega))

theorem validArith_eq_7 (n b0 b1 b2 b3 : Nat) (h : b0 = 240) :
    validArith n b0 b1 b2 b3 =
      if stepArith n b0 b1 b2 b3 = (65533, 1) then none
      else some (stepArith n b0 b1 b2 b3).2 := by
  rw [validArith_of_first s5 4 144 191 n b0 b1 b2 b3 (by omega) (first_s5 b0 (by omega) (by omega))
    (by decide) (by decide) rfl, stepArith_four n b0 b1 b2 b3 (by omega)]
  by_cases hC : 4 ≤ n ∧ 144 ≤ b1 ∧ b1 ≤ 191 ∧ 128 ≤ b2 ∧ b2 ≤ 191 ∧ 128 ≤ b3 ∧ b3 ≤ 191
  · exact agree_pos _ _ _ 4 (validTail4_pos _ _ n b1 b2 b3 hC)
      (step4_pos n b0 b1 b2 b3 (by omega) (by omega)) (by decide)
  · exact agree_neg _ _ (validTail4_neg _ _ n b1 b2 b3 hC)
      (step4_neg n b0 b1 b2 b3 (by omega))

theorem validArith_eq_8 (n b0 b1 b2 b3 : Nat) (h : 241 ≤ b0 ∧ b0 < 244) :
    validArith n b0 b1 b2 b3 =
      if stepArith n b0 b1 b2 b3 = (65533, 1) then none
      else some (stepArith n b0 b1 b2 b3).2 := by
  rw [validArith_of_first s6 4 128 191 n b0 b1 b2 b3 (by omega) (first_s6 b0 h.2 h.1)
    (by decide) (by decide) rfl, stepArith_four n b0 b1 b2 b3 (by omega)]
  by_cases hC : 4 ≤ n ∧ 128 ≤ b1 ∧ b1 ≤ 191 ∧ 128 ≤ b2 ∧ b2 ≤ 191 ∧ 128 ≤ b3 ∧ b3 ≤ 191
  · exact agree_pos _ _ _ 4 (validTail4_pos _ _ n b1 b2 b3 hC)
      (step4_pos n b0 b1 b2 b3 (by omega) (by omega)) (by decide)
  · exact agree_neg _ _ (validTail4_neg _ _ n b1 b2 b3 hC)
      (step4_neg n b0 b1 b2 b3 (by omega))

theorem validArith_eq_9 (n b0 b1 b2 b3 : Nat) (h : b0 = 244) :
    validArith n b0 b1 b2 b3 =
      if stepArith n b0 b1 b2 b3 = (65533, 1) then none
      else some (stepArith n b0 b1 b2 b3).2 := by
  rw [validArith_of_first s7 4 128 143 n b0 b1 b2 b3 (by omega) (first_s7 b0 (by omega) (by omega))
    (by decide) (by decide) rfl, stepArith_four n b0 b1 b2 b3 (by omega)]
  by_cases hC : 4 ≤ n ∧ 128 ≤ b1 ∧ b1 ≤ 143 ∧ 128 ≤ b2 ∧ b2 ≤ 191 ∧ 128 ≤ b3 ∧ b3 ≤ 191
  · exact agree_pos _ _ _ 4 (validTail4_pos _ _ n b1 b2 b3 hC)
      (step4_pos n b0 b1 b2 b3 (by omega) (by omega)) (by decide)
  · exact agree_neg _ _ (validTail4_neg _ _ n b1 b2 b3 hC)
      (step4_neg n b0 b1 b2 b3 (by omega))

theorem validArith_eq_10 (n b0 b1 b2 b3 : Nat) (h : 245 ≤ b0 ∧ b0 < 256) :
    validArith n b0 b1 b2 b3 =
      if stepArith n b0 b1 b2 b3 = (65533, 1) then none
      else some (stepArith n b0 b1 b2 b3).2 := by
  apply agree_neg _ _ (validArith_of_xx n b0 b1 b2 b3 (by omega) (first_hi b0 h.2 h.1))
  by_cases hb : 248 ≤ b0
  · exact stepArith_bad n b0 b1 b2 b3 (by omega)
  · rw [stepArith_four n b0 b1 b2 b3 (by omega)]
    apply step4_neg
    omega

/-- The validator and the decoder agree: `validStep` rejects exactly when the
decoder yields the error rune with width one, and otherwise advances by the
width of the decoded rune. -/
theorem validArith_eq (n b0 b1 b2 b3 : Nat) (h0 : b0 < 256) :
    validArith n b0 b1 b2 b3 =
      if stepArith n b0 b1 b2 b3 = (65533, 1) then none
      else some (stepArith n b0 b1 b2 b3).2 := by
  have hcase : b0 < 128 ∨ (128 ≤ b0 ∧ b0 < 194) ∨ (194 ≤ b0 ∧ b0 < 224) ∨ b0 = 224
      ∨ (225 ≤ b0 ∧ b0 < 237) ∨ b0 = 237 ∨ (238 ≤ b0 ∧ b0 < 240) ∨ b0 = 240
      ∨ (241 ≤ b0 ∧ b0 < 244) ∨ b0 = 244 ∨ (245 ≤ b0 ∧ b0 < 256) := by omega
  rcases hcase with h | h | h | h | h | h | h | h | h | h | h
  · exact validArith_eq_0 n b0 b1 b2 b3 h
  · exact validArith_eq_1 n b0 b1 b2 b3 h
  · exact validArith_eq_2 n b0 b1 b2 b3 h
  · exact validArith_eq_3 n b0 b1 b2 b3 h
  · exact validArith_eq_4 n b0 b1 b2 b3 h
  · exact validArith_eq_5 n b0 b1 b2 b3 h
  · exact validArith_eq_6 n b0 b1 b2 b3 h
  · exact validArith_eq_7 n b0 b1 b2 b3 h
  · exact validArith_eq_8 n b0 b1 b2 b3 h
  · exact validArith_eq_9 n b0 b1 b2 b3 h
  · exact validArith_eq_10 n b0 b1 b2 b3 h

/-! ## The loops of `[]rune(s)` and of `utf8.ValidString`, one rune at a time -/

theorem byteAt_drop (s : GoString) (k i : Nat) : byteAt (s.drop k) i = byteAt s (k + i) := by
  simp only [byteAt, List.getD_eq_getElem?_getD, List.getElem?_drop]

theorem decoderune_drop (s : GoString) (k : Nat) (hk : k < s.length) :
    decoderune s k = ((decoderune (s.drop k) 0).1, k + (decoderune (s.drop k) 0).2) := by
  have h1 : ¬ (k ≥ s.length) := by omega
  have h2 : ¬ (0 ≥ (s.drop k).length) := by rw [List.length_drop]; omega
  unfold decoderune
  simp only [if_neg h1, if_neg h2, List.drop_zero]
  split_ifs <;> rfl

theorem rangeStep_drop (s : GoString) (k : Nat) (hk : k < s.length) :
    rangeStep s k = ((rangeStep (s.drop k) 0).1, k + (rangeStep (s.drop k) 0).2) := by
  unfold rangeStep
  simp only [byteAt_drop, Nat.add_zero]
  by_cases h : byteAt s k < runeSelf
  · simp only [if_pos h, Nat.zero_add]
  · simp only [if_neg h]
    exact decoderune_drop s k hk

theorem validStep_drop (s : GoString) (k : Nat) (hk : k < s.length) :
    validStep s k = (validStep (s.drop k) 0).map (k + ·) := by
  unfold validStep
  simp only [byteAt_drop, Nat.add_zero, Nat.zero_add, List.length_drop]
  have e : ∀ size, (k + size > s.length) = (size > s.length - k) := by
    intro size; apply propext; omega
  simp only [e]
  split_ifs <;> rfl


theorem stepArith_width (n b0 b1 b2 b3 : Nat) :
    1 ≤ (stepArith n b0 b1 b2 b3).2 ∧ ((stepArith n b0 b1 b2 b3).2 ≤ n ∨ n = 0) := by
  unfold stepArith step2 step3 step4
  split_ifs <;> simp <;> omega

theorem rangeStep_width (s : GoString) (hs : s ≠ []) :
    1 ≤ (rangeStep s 0).2 ∧ (rangeStep s 0).2 ≤ s.length := by
  rw [rangeStep_zero s hs]
  have h := stepArith_width s.length (byteAt s 0) (byteAt s 1) (byteAt s 2) (byteAt s 3)
  have hl : s.length ≠ 0 := by
    intro h0; exact hs (List.length_eq_zero.mp h0)
  omega

theorem rangeLoop_drop (fuel : Nat) : ∀ (s : GoString) (k : Nat),
    rangeLoop s fuel k = rangeLoop (s.drop k) fuel 0 := by
  induction fuel with
  | zero => intro s k; rfl
  | succ fuel ih =>
    intro s k
    by_cases hk : k < s.length
    · have hd : 0 < (s.drop k).length := by rw [List.length_drop]; omega
      simp only [rangeLoop, if_pos hk, if_pos hd]
      rw [rangeStep_drop s k hk]
      simp only
      rw [ih s, ih (s.drop k), List.drop_drop]
    · have hd : ¬ 0 < (s.drop k).length := by rw [List.length_drop]; omega
      simp only [rangeLoop, if_neg hk, if_neg hd]

theorem rangeLoop_fuel (n : Nat) : ∀ (s : GoString) (fuel : Nat), s.length ≤ n →
    s.length ≤ fuel → rangeLoop s fuel 0 = stringtoslicerune s := by
  induction n with
  | zero =>
    intro s fuel hn _
    have hs : s = [] := List.length_eq_zero.mp (by omega)
    subst hs
    cases fuel <;> rfl
  | succ n ih =>
    intro s fuel hn hf
    cases s with
    | nil => cases fuel <;> rfl
    | cons c t =>
      have hw := rangeStep_width (c :: t) (by simp)
      have hlen : ((c :: t).drop (rangeStep (c :: t) 0).2).length ≤ n := by
        rw [List.length_drop]; simp only [List.length_cons] at hn ⊢; omega
      obtain ⟨f, rfl⟩ : ∃ f, fuel = f + 1 := ⟨fuel - 1, by simp only [List.length_cons] at hf; omega⟩
      unfold stringtoslicerune
      simp only [List.length_cons, rangeLoop, Nat.zero_lt_succ, if_true]
      rw [rangeLoop_drop f, rangeLoop_drop t.length,
        ih _ f hlen (by rw [List.length_drop]; simp only [List.length_cons] at hf ⊢; omega),
        ih _ t.length hlen (by rw [List.length_drop]; simp only [List.length_cons]; omega)]

/-- Unfolding `[]rune(s)` by one rune. -/
theorem stringtoslicerune_cons (c : Byte) (t : GoString) :
    stringtoslicerune (c :: t)
      = (rangeStep (c :: t) 0).1
        :: stringtoslicerune ((c :: t).drop (rangeStep (c :: t) 0).2) := by
  have hw := rangeStep_width (c :: t) (by simp)
  conv => lhs; unfold stringtoslicerune
  simp only [List.length_cons, rangeLoop, Nat.zero_lt_succ, if_true]
  rw [rangeLoop_drop t.length,
    rangeLoop_fuel t.length _ t.length
      (by rw [List.length_drop]; simp only [List.length_cons]; omega)
      (by rw [List.length_drop]; simp only [List.length_cons]; omega)]

theorem stringtoslicerune_nil : stringtoslicerune [] = [] := rfl


/-- The validator and the decoder agree on the first rune of a nonempty
string. -/
theorem validStep_eq_rangeStep (s : GoString) (hs : s ≠ []) :
    validStep s 0 = if rangeStep s 0 = (runeError, 1) then none else some (rangeStep s 0).2 := by
  rw [validStep_zero, rangeStep_zero s hs]
  exact validArith_eq _ _ _ _ _ (byteAt_lt s 0)

theorem validLoop_drop (fuel : Nat) : ∀ (s : GoString) (k : Nat),
    validLoop s fuel k = validLoop (s.drop k) fuel 0 := by
  induction fuel with
  | zero =>
    intro s k
    simp only [validLoop, List.length_drop]
    congr 1
    apply propext
    omega
  | succ fuel ih =>
    intro s k
    by_cases hk : k < s.length
    · have hd : 0 < (s.drop k).length := by rw [List.length_drop]; omega
      simp only [validLoop, if_pos hk, if_pos hd]
      rw [validStep_drop s k hk]
      cases validStep (s.drop k) 0 with
      | none => rfl
      | some w =>
        simp only [Option.map_some']
        rw [ih s, ih (s.drop k), List.drop_drop]
    · have hd : ¬ 0 < (s.drop k).length := by rw [List.length_drop]; omega
      simp only [validLoop, if_neg hk, if_neg hd]

theorem validStep_width (s : GoString) (hs : s ≠ []) (w : Nat) (h : validStep s 0 = some w) :
    1 ≤ w ∧ w ≤ s.length := by
  rw [validStep_eq_rangeStep s hs] at h
  have hw := rangeStep_width s hs
  split at h
  · exact absurd h (by simp)
  · have e : (rangeStep s 0).2 = w := Option.some.inj h
    omega

theorem validLoop_fuel (n : Nat) : ∀ (s : GoString) (fuel : Nat), s.length ≤ n →
    s.length ≤ fuel → validLoop s fuel 0 = validAll s := by
  induction n with
  | zero =>
    intro s fuel hn _
    have hs : s = [] := List.length_eq_zero.mp (by omega)
    subst hs
    cases fuel <;> rfl
  | succ n ih =>
    intro s fuel hn hf
    cases s with
    | nil => cases fuel <;> rfl
    | cons c t =>
      obtain ⟨f, rfl⟩ : ∃ f, fuel = f + 1 := ⟨fuel - 1, by simp only [List.length_cons] at hf; omega⟩
      unfold validAll
      simp only [List.length_cons, validLoop, Nat.zero_lt_succ, if_true]
      cases hv : validStep (c :: t) 0 with
      | none => rfl
      | some w =>
        have hw := validStep_width (c :: t) (by simp) w hv
        have hlen : ((c :: t).drop w).length ≤ n := by
          rw [List.length_drop]; simp only [List.length_cons] at hn ⊢; omega
        simp only
        rw [validLoop_drop f, validLoop_drop t.length,
          ih _ f hlen (by rw [List.length_drop]; simp only [List.length_cons] at hf ⊢; omega),
          ih _ t.length hlen (by rw [List.length_drop]; simp only [List.length_cons]; omega)]

theorem validAll_nil : validAll [] = true := rfl

/-- Unfolding the main loop of `utf8.ValidString` by one rune. -/
theorem validAll_cons (c : Byte) (t : GoString) :
    validAll (c :: t)
      = match validStep (c :: t) 0 with
        | none => false
        | some w => validAll ((c :: t).drop w) := by
  conv => lhs; unfold validAll
  simp only [List.length_cons, validLoop, Nat.zero_lt_succ, if_true]
  cases hv : validStep (c :: t) 0 with
  | none => rfl
  | some w =>
    have hw := validStep_width (c :: t) (by simp) w hv
    simp only
    rw [validLoop_drop t.length,
      validLoop_fuel t.length _ t.length
        (by rw [List.length_drop]; simp only [List.length_cons]; omega)
        (by rw [List.length_drop]; simp only [List.length_cons]; omega)]

theorem validAll_cons_ascii (c : Byte) (t : GoString) (h : c.val < 128) :
    validAll (c :: t) = validAll t := by
  rw [validAll_cons]
  have e : validStep (c :: t) 0 = some 1 := by
    simp only [validStep, byteAt_cons_zero, runeSelf, if_pos h]
  rw [e]
  rfl

/-! ## The fast path of `utf8.ValidString` -/

set_option maxRecDepth 100000 in
theorem lt_128_of_testBit : ∀ b, b < 256 → b.testBit 7 = false → b < 128 := by decide

theorem highbits_clear (a0 a1 a2 a3 a4 a5 a6 a7 : Nat)
    (h0 : a0 < 256) (h1 : a1 < 256) (h2 : a2 < 256) (h3 : a3 < 256)
    (h4 : a4 < 256) (h5 : a5 < 256) (h6 : a6 < 256) (h7 : a7 < 256)
    (h : ((((a0 ||| (a1 <<< 8)) ||| (a2 <<< 16)) ||| (a3 <<< 24))
        ||| (((a4 ||| (a5 <<< 8)) ||| (a6 <<< 16)) ||| (a7 <<< 24))) &&& 0x80808080 = 0) :
    a0 < 128 ∧ a1 < 128 ∧ a2 < 128 ∧ a3 < 128 ∧ a4 < 128 ∧ a5 < 128 ∧ a6 < 128 ∧ a7 < 128 := by
  have t7 := congrArg (fun x => Nat.testBit x 7) h
  have t15 := congrArg (fun x => Nat.testBit x 15) h
  have t23 := congrArg (fun x => Nat.testBit x 23) h
  have t31 := congrArg (fun x => Nat.testBit x 31) h
  simp only [Nat.testBit_and, Nat.testBit_or, Nat.testBit_shiftLeft, Nat.zero_testBit] at t7 t15 t23 t31
  have m7 : Nat.testBit 0x80808080 7 = true := by decide
  have m15 : Nat.testBit 0x80808080 15 = true := by decide
  have m23 : Nat.testBit 0x80808080 23 = true := by decide
  have m31 : Nat.testBit 0x80808080 31 = true := by decide
  rw [m7] at t7; rw [m15] at t15; rw [m23] at t23; rw [m31] at t31
  simp at t7 t15 t23 t31
  exact ⟨lt_128_of_testBit a0 h0 t7.1, lt_128_of_testBit a1 h1 t15.1.2,
    lt_128_of_testBit a2 h2 t23.1.2, lt_128_of_testBit a3 h3 t31.1.2,
    lt_128_of_testBit a4 h4 t7.2, lt_128_of_testBit a5 h5 t15.2.2,
    lt_128_of_testBit a6 h6 t23.2.2, lt_128_of_testBit a7 h7 t31.2.2⟩

/-- The fast path of `utf8.ValidString` does not change its result. -/
theorem validAll_skipASCII (n : Nat) : ∀ s : GoString, s.length ≤ n →
    validAll (skipASCII s) = validAll s := by
  induction n with
  | zero =>
    intro s hn
    have hs : s = [] := List.length_eq_zero.mp (by omega)
    subst hs
    rfl
  | succ n ih =>
    intro s hn
    rcases s with _ | ⟨b0, _ | ⟨b1, _ | ⟨b2, _ | ⟨b3, _ | ⟨b4, _ | ⟨b5, _ | ⟨b6, _ | ⟨b7, rest⟩⟩⟩⟩⟩⟩⟩⟩
    all_goals try rfl
    simp only [skipASCII]
    split
    · rfl
    · rename_i hz
      have hz0 := Decidable.of_not_not hz
      obtain ⟨k0, k1, k2, k3, k4, k5, k6, k7⟩ := highbits_clear _ _ _ _ _ _ _ _
        b0.isLt b1.isLt b2.isLt b3.isLt b4.isLt b5.isLt b6.isLt b7.isLt hz0
      rw [ih rest (by simp only [List.length_cons] at hn; omega),
        validAll_cons_ascii _ _ k0, validAll_cons_ascii _ _ k1, validAll_cons_ascii _ _ k2,
        validAll_cons_ascii _ _ k3, validAll_cons_ascii _ _ k4, validAll_cons_ascii _ _ k5,
        validAll_cons_ascii _ _ k6, validAll_cons_ascii _ _ k7]

theorem ValidString_eq (s : GoString) : ValidString s = validAll s :=
  validAll_skipASCII s.length s (Nat.le_refl _)

/-! ## Decoding what `encoderune` wrote -/

theorem stepArith_one (n b0 b1 b2 b3 : Nat) (h : b0 < 128) :
    stepArith n b0 b1 b2 b3 = (b0, 1) := by
  simp only [stepArith, if_pos h]

theorem stepArith_enc2 (r n b2 b3 : Nat) (h : 127 < r ∧ r ≤ 2047) (hn : 2 ≤ n) :
    stepArith n (192 + r / 64) (128 + r % 64) b2 b3 = (r, 2) := by
  rw [stepArith_two _ _ _ _ _ (by omega), step2_pos _ _ _ (by omega) (by omega)]
  congr 1
  omega

theorem stepArith_enc3 (r n b3 : Nat)
    (h : 2047 < r ∧ r ≤ 65535 ∧ ¬ (55296 ≤ r ∧ r ≤ 57343)) (hn : 3 ≤ n) :
    stepArith n (224 + r / 4096) (128 + r / 64 % 64) (128 + r % 64) b3 = (r, 3) := by
  have e : (224 + r / 4096) % 16 * 4096 + (128 + r / 64 % 64) % 64 * 64 + (128 + r % 64) % 64
      = r := by omega
  rw [stepArith_three _ _ _ _ _ (by omega),
    step3_pos _ _ _ _ (by omega) (by rw [e]; omega), e]

theorem stepArith_enc4 (r n : Nat) (h : 65535 < r ∧ r ≤ 1114111) (hn : 4 ≤ n) :
    stepArith n (240 + r / 262144) (128 + r / 4096 % 64) (128 + r / 64 % 64) (128 + r % 64)
      = (r, 4) := by
  have e : (240 + r / 262144) % 8 * 262144 + (128 + r / 4096 % 64) % 64 * 4096
      + (128 + r / 64 % 64) % 64 * 64 + (128 + r % 64) % 64 = r := by omega
  rw [stepArith_four _ _ _ _ _ (by omega),
    step4_pos _ _ _ _ _ (by omega) (by rw [e]; omega), e]

theorem enc_mid6 (r : Nat) : 128 + r >>> 6 % 64 = 128 + r / 64 % 64 := by
  rw [Nat.shiftRight_eq_div_pow]

theorem enc_mid12 (r : Nat) : 128 + r >>> 12 % 64 = 128 + r / 4096 % 64 := by
  rw [Nat.shiftRight_eq_div_pow]

theorem encoderune_one (r : Nat) (h : r ≤ 127) : encoderune r = [toByte r] := by
  simp only [encoderune, if_pos (show r ≤ rune1Max from h)]

theorem encoderune_two (r : Nat) (h : 127 < r ∧ r ≤ 2047) :
    encoderune r
      = [toByte (t2 ||| ((r >>> 6) % 256)), toByte (tx ||| ((r % 256) &&& maskx))] := by
  simp only [encoderune, if_neg (show ¬ r ≤ rune1Max from by show ¬ r ≤ 127; omega),
    if_pos (show r ≤ rune2Max from h.2)]

theorem encoderune_bad (r : Nat) (h : 1114111 < r ∨ (55296 ≤ r ∧ r ≤ 57343)) :
    encoderune r = encode3 runeError := by
  simp only [encoderune, if_neg (show ¬ r ≤ rune1Max from by show ¬ r ≤ 127; omega),
    if_neg (show ¬ r ≤ rune2Max from by show ¬ r ≤ 2047; omega),
    if_pos (show r > maxRune ∨ (surrogateMin ≤ r ∧ r ≤ surrogateMax) from h)]

theorem encoderune_three (r : Nat) (h : 2047 < r ∧ r ≤ 65535 ∧ ¬ (55296 ≤ r ∧ r ≤ 57343)) :
    encoderune r = encode3 r := by
  simp only [encoderune, if_neg (show ¬ r ≤ rune1Max from by show ¬ r ≤ 127; omega),
    if_neg (show ¬ r ≤ rune2Max from by show ¬ r ≤ 2047; omega),
    if_neg (show ¬ (r > maxRune ∨ (surrogateMin ≤ r ∧ r ≤ surrogateMax)) from by
      show ¬ (r > 1114111 ∨ (55296 ≤ r ∧ r ≤ 57343)); omega),
    if_pos (show r ≤ rune3Max from h.2.1)]

theorem encoderune_four (r : Nat) (h : 65535 < r ∧ r ≤ 1114111) :
    encoderune r
      = [toByte (t4 ||| ((r >>> 18) % 256)),
         toByte (tx ||| (((r >>> 12) % 256) &&& maskx)),
         toByte (tx ||| (((r >>> 6) % 256) &&& maskx)),
         toByte (tx ||| ((r % 256) &&& maskx))] := by
  simp only [encoderune, if_neg (show ¬ r ≤ rune1Max from by show ¬ r ≤ 127; omega),
    if_neg (show ¬ r ≤ rune2Max from by show ¬ r ≤ 2047; omega),
    if_neg (show ¬ (r > maxRune ∨ (surrogateMin ≤ r ∧ r ≤ surrogateMax)) from by
      show ¬ (r > 1114111 ∨ (55296 ≤ r ∧ r ≤ 57343)); omega),
    if_neg (show ¬ r ≤ rune3Max from by show ¬ r ≤ 65535; omega)]

theorem rangeStep_encode3 (r : Nat) (t : GoString)
    (h : 2047 < r ∧ r ≤ 65535 ∧ ¬ (55296 ≤ r ∧ r ≤ 57343)) :
    rangeStep (encode3 r ++ t) 0 = (r, 3) := by
  rw [rangeStep_zero _ (by simp [encode3])]
  simp only [encode3, List.cons_append, List.nil_append, List.length_cons, byteAt_cons_zero,
    byteAt_cons_succ, enc_lead3 r (by omega), enc_mid6, enc_cont]
  exact stepArith_enc3 r (t.length + 1 + 1 + 1) _ h (by omega)

theorem sanitize_scalar (r : Nat) (h : r < 55296 ∨ (57343 < r ∧ r ≤ 1114111)) :
    sanitize r = r := by
  simp only [sanitize, isScalar, decide_eq_true_eq,
    if_pos (show r < surrogateMin ∨ (surrogateMax < r ∧ r ≤ maxRune) from h)]

theorem sanitize_bad (r : Nat) (h : 1114111 < r ∨ (55296 ≤ r ∧ r ≤ 57343)) :
    sanitize r = runeError := by
  simp only [sanitize, isScalar, decide_eq_true_eq,
    if_neg (show ¬ (r < surrogateMin ∨ (surrogateMax < r ∧ r ≤ maxRune)) from by
      show ¬ (r < 55296 ∨ (57343 < r ∧ r ≤ 1114111)); omega)]

/-- Decoding the encoding of a rune gives the rune back (`runeError` when it is
not a scalar value), with the width of the encoding. -/
theorem rangeStep_encoderune (r : Nat) (t : GoString) :
    rangeStep (encoderune r ++ t) 0 = (sanitize r, (encoderune r).length) := by
  have hcase : r ≤ 127 ∨ (127 < r ∧ r ≤ 2047) ∨ (1114111 < r ∨ (55296 ≤ r ∧ r ≤ 57343))
      ∨ (2047 < r ∧ r ≤ 65535 ∧ ¬ (55296 ≤ r ∧ r ≤ 57343)) ∨ (65535 < r ∧ r ≤ 1114111) := by
    omega
  rcases hcase with h | h | h | h | h
  · rw [encoderune_one r h, sanitize_scalar r (by omega), rangeStep_zero _ (by simp)]
    simp only [List.cons_append, List.nil_append, byteAt_cons_zero, toByte_val]
    rw [stepArith_one _ _ _ _ _ (by omega)]
    congr 1
    omega
  · rw [encoderune_two r h, sanitize_scalar r (by omega), rangeStep_zero _ (by simp)]
    simp only [List.cons_append, List.nil_append, List.length_cons, byteAt_cons_zero,
      byteAt_cons_succ, enc_lead2 r (by omega), enc_cont]
    exact stepArith_enc2 r (t.length + 1 + 1) _ _ h (by omega)
  · rw [encoderune_bad r h, sanitize_bad r h]
    exact rangeStep_encode3 runeError t (by decide)
  · rw [encoderune_three r h, sanitize_scalar r (by omega)]
    exact rangeStep_encode3 r t h
  · rw [encoderune_four r h, sanitize_scalar r (by omega), rangeStep_zero _ (by simp)]
    simp only [List.cons_append, List.nil_append, List.length_cons, byteAt_cons_zero,
      byteAt_cons_succ, enc_lead4 r (by omega), enc_mid12, enc_mid6, enc_cont]
    exact stepArith_enc4 r (t.length + 1 + 1 + 1 + 1) h (by omega)

/-! ## Encoding what the decoder read -/

theorem bytes1 (x : Byte) (s : GoString) (h : 1 ≤ s.length) (hx : x.val = byteAt s 0) :
    [x] = s.take 1 := by
  rcases s with _ | ⟨c0, t⟩
  · simp at h
  · simp only [byteAt_cons_zero] at hx
    rw [Fin.ext hx]; rfl

theorem bytes2 (x y : Byte) (s : GoString) (h : 2 ≤ s.length) (hx : x.val = byteAt s 0)
    (hy : y.val = byteAt s 1) : [x, y] = s.take 2 := by
  rcases s with _ | ⟨c0, _ | ⟨c1, t⟩⟩
  · simp at h
  · simp at h
  · simp only [byteAt_cons_zero, byteAt_cons_succ] at hx hy
    rw [Fin.ext hx, Fin.ext hy]; rfl

theorem bytes3 (x y z : Byte) (s : GoString) (h : 3 ≤ s.length) (hx : x.val = byteAt s 0)
    (hy : y.val = byteAt s 1) (hz : z.val = byteAt s 2) : [x, y, z] = s.take 3 := by
  rcases s with _ | ⟨c0, _ | ⟨c1, _ | ⟨c2, t⟩⟩⟩
  · simp at h
  · simp at h
  · simp at h
  · simp only [byteAt_cons_zero, byteAt_cons_succ] at hx hy hz
    rw [Fin.ext hx, Fin.ext hy, Fin.ext hz]; rfl

theorem bytes4 (x y z u : Byte) (s : GoString) (h : 4 ≤ s.length) (hx : x.val = byteAt s 0)
    (hy : y.val = byteAt s 1) (hz : z.val = byteAt s 2) (hu : u.val = byteAt s 3) :
    [x, y, z, u] = s.take 4 := by
  rcases s with _ | ⟨c0, _ | ⟨c1, _ | ⟨c2, _ | ⟨c3, t⟩⟩⟩⟩
  · simp at h
  · simp at h
  · simp at h
  · simp at h
  · simp only [byteAt_cons_zero, byteAt_cons_succ] at hx hy hz hu
    rw [Fin.ext hx, Fin.ext hy, Fin.ext hz, Fin.ext hu]; rfl

theorem isScalar_of (r : Nat) (h : r < 55296 ∨ (57343 < r ∧ r ≤ 1114111)) :
    isScalar r = true := by
  simp only [isScalar, decide_eq_true_eq]
  exact h

/-- Encoding the rune read by a successful decoding step gives back exactly
the bytes that were read, and the rune is a scalar value. -/
theorem encoderune_rangeStep (s : GoString) (hs : s ≠ [])
    (hv : rangeStep s 0 ≠ (runeError, 1)) :
    encoderune (rangeStep s 0).1 = s.take (rangeStep s 0).2
      ∧ isScalar (rangeStep s 0).1 = true := by
  have hn : 1 ≤ s.length := by
    cases s with
    | nil => exact absurd rfl hs
    | cons c t => simp
  rw [rangeStep_zero s hs] at hv ⊢
  have h0 := byteAt_lt s 0
  have h1 := byteAt_lt s 1
  have h2 := byteAt_lt s 2
  have h3 := byteAt_lt s 3
  generalize hb0 : byteAt s 0 = b0 at *
  generalize hb1 : byteAt s 1 = b1 at *
  generalize hb2 : byteAt s 2 = b2 at *
  generalize hb3 : byteAt s 3 = b3 at *
  have hcase : b0 < 128 ∨ ((128 ≤ b0 ∧ b0 < 192) ∨ 248 ≤ b0) ∨ (192 ≤ b0 ∧ b0 < 224)
      ∨ (224 ≤ b0 ∧ b0 < 240) ∨ (240 ≤ b0 ∧ b0 < 248) := by omega
  rcases hcase with h | h | h | h | h
  · rw [stepArith_one _ _ _ _ _ h]
    refine ⟨?_, isScalar_of _ (by omega)⟩
    rw [encoderune_one b0 (by omega)]
    apply bytes1 _ s hn
    rw [toByte_val, hb0]; omega
  · exact absurd (stepArith_bad _ _ _ _ _ h) hv
  · rw [stepArith_two _ _ _ _ _ h] at hv ⊢
    by_cases hC : (s.length > 1 ∧ (128 ≤ b1 ∧ b1 ≤ 191)) ∧ 127 < b0 % 32 * 64 + b1 % 64
    · rw [step2_pos _ _ _ hC.1 hC.2]
      refine ⟨?_, isScalar_of _ (by omega)⟩
      rw [encoderune_two _ (by omega)]
      apply bytes2 _ _ s (by omega)
      · rw [enc_lead2 _ (by omega), hb0]; omega
      · rw [enc_cont, hb1]; omega
    · exact absurd (step2_neg _ _ _ (by omega)) hv
  · rw [stepArith_three _ _ _ _ _ h] at hv ⊢
    by_cases hC : (s.length > 2 ∧ (128 ≤ b1 ∧ b1 ≤ 191) ∧ (128 ≤ b2 ∧ b2 ≤ 191))
        ∧ (2047 < b0 % 16 * 4096 + b1 % 64 * 64 + b2 % 64
          ∧ ¬ (55296 ≤ b0 % 16 * 4096 + b1 % 64 * 64 + b2 % 64
            ∧ b0 % 16 * 4096 + b1 % 64 * 64 + b2 % 64 ≤ 57343))
    · rw [step3_pos _ _ _ _ hC.1 hC.2]
      refine ⟨?_, isScalar_of _ (by omega)⟩
      rw [encoderune_three _ (by omega)]
      apply bytes3 _ _ _ s (by omega)
      · rw [enc_lead3 _ (by omega), hb0]; omega
      · rw [enc_cont, enc_mid6, hb1]; omega
      · rw [enc_cont, hb2]; omega
    · exact absurd (step3_neg _ _ _ _ (by omega)) hv
  · rw [stepArith_four _ _ _ _ _ h] at hv ⊢
    by_cases hC : (s.length > 3 ∧ (128 ≤ b1 ∧ b1 ≤ 191) ∧ (128 ≤ b2 ∧ b2 ≤ 191)
          ∧ (128 ≤ b3 ∧ b3 ≤ 191))
        ∧ (65535 < b0 % 8 * 262144 + b1 % 64 * 4096 + b2 % 64 * 64 + b3 % 64
          ∧ b0 % 8 * 262144 + b1 % 64 * 4096 + b2 % 64 * 64 + b3 % 64 ≤ 1114111)
    · rw [step4_pos _ _ _ _ _ hC.1 hC.2]
      refine ⟨?_, isScalar_of _ (by omega)⟩
      rw [encoderune_four _ (by omega)]
      apply bytes4 _ _ _ _ s (by omega)
      · rw [enc_lead4 _ (by omega), hb0]; omega
      · rw [enc_cont, enc_mid12, hb1]; omega
      · rw [enc_cont, enc_mid6, hb2]; omega
      · rw [enc_cont, hb3]; omega
    · exact absurd (step4_neg _ _ _ _ _ (by omega)) hv

/-! ## Whole strings -/

theorem encoderune_length (r : Nat) :
    1 ≤ (encoderune r).length ∧ ((encoderune r).length = 1 → r ≤ 127) := by
  have hcase : r ≤ 127 ∨ (127 < r ∧ r ≤ 2047) ∨ (1114111 < r ∨ (55296 ≤ r ∧ r ≤ 57343))
      ∨ (2047 < r ∧ r ≤ 65535 ∧ ¬ (55296 ≤ r ∧ r ≤ 57343)) ∨ (65535 < r ∧ r ≤ 1114111) := by
    omega
  rcases hcase with h | h | h | h | h
  · rw [encoderune_one r h]; simp; exact h
  · rw [encoderune_two r h]; simp
  · rw [encoderune_bad r h]; simp [encode3]
  · rw [encoderune_three r h]; simp [encode3]
  · rw [encoderune_four r h]; simp

theorem rangeStep_encoderune_ne (r : Nat) (t : GoString) :
    rangeStep (encoderune r ++ t) 0 ≠ (runeError, 1) := by
  rw [rangeStep_encoderune]
  intro h
  have h1 : sanitize r = 65533 := congrArg Prod.fst h
  have h2 : (encoderune r).length = 1 := congrArg Prod.snd h
  have h3 := (encoderune_length r).2 h2
  rw [sanitize_scalar r (by omega)] at h1
  have h4 : (r : Nat) = 65533 := h1
  omega

theorem encoderune_append_ne_nil (r : Nat) (t : GoString) : encoderune r ++ t ≠ [] := by
  intro h
  have := congrArg List.length h
  have hl := (encoderune_length r).1
  simp only [List.length_append, List.length_nil] at this
  omega

/-- Decoding a string that starts with the encoding of a rune. -/
theorem stringtoslicerune_encoderune_append (r : Nat) (t : GoString) :
    stringtoslicerune (encoderune r ++ t) = sanitize r :: stringtoslicerune t := by
  have hne := encoderune_append_ne_nil r t
  cases hs : encoderune r ++ t with
  | nil => exact absurd hs hne
  | cons c u =>
    rw [stringtoslicerune_cons, ← hs, rangeStep_encoderune]
    simp only [List.drop_left]

/-- Validating a string that starts with the encoding of a rune. -/
theorem validAll_encoderune_append (r : Nat) (t : GoString) :
    validAll (encoderune r ++ t) = validAll t := by
  have hne := encoderune_append_ne_nil r t
  have hv := validStep_eq_rangeStep _ hne
  rw [if_neg (rangeStep_encoderune_ne r t), rangeStep_encoderune] at hv
  cases hs : encoderune r ++ t with
  | nil => exact absurd hs hne
  | cons c u =>
    rw [validAll_cons, ← hs, hv]
    simp only [List.drop_left]

/-- The output of `string(r)` always passes the validator. -/
theorem validAll_slicerunetostring (rs : List Nat) : validAll (slicerunetostring rs) = true := by
  induction rs with
  | nil => rfl
  | cons r rs ih => rw [slicerunetostring, validAll_encoderune_append, ih]

/-- Decoding after encoding replaces every rune that is not a scalar value by
`runeError` and keeps the others. -/
theorem stringtoslicerune_slicerunetostring (rs : List Nat) :
    stringtoslicerune (slicerunetostring rs) = rs.map sanitize := by
  induction rs with
  | nil => rfl
  | cons r rs ih =>
    rw [slicerunetostring, stringtoslicerune_encoderune_append, ih, List.map_cons]

/-- On a string that passes the validator, encoding after decoding is the
identity and every decoded rune is a scalar value. -/
theorem slicerunetostring_stringtoslicerune (n : Nat) : ∀ s : GoString, s.length ≤ n →
    validAll s = true →
    slicerunetostring (stringtoslicerune s) = s
      ∧ ∀ r ∈ stringtoslicerune s, isScalar r = true := by
  induction n with
  | zero =>
    intro s hn _
    have hs : s = [] := List.length_eq_zero.mp (by omega)
    subst hs
    exact ⟨rfl, by simp [stringtoslicerune_nil]⟩
  | succ n ih =>
    intro s hn hv
    cases s with
    | nil => exact ⟨rfl, by simp [stringtoslicerune_nil]⟩
    | cons c t =>
      rw [validAll_cons] at hv
      have hstep := validStep_eq_rangeStep (c :: t) (by simp)
      have hw := rangeStep_width (c :: t) (by simp)
      by_cases he : rangeStep (c :: t) 0 = (runeError, 1)
      · rw [if_pos he] at hstep
        rw [hstep] at hv
        exact absurd hv (by simp)
      · rw [if_neg he] at hstep
        rw [hstep] at hv
        simp only at hv
        obtain ⟨henc, hsc⟩ := encoderune_rangeStep (c :: t) (by simp) he
        obtain ⟨ih1, ih2⟩ := ih ((c :: t).drop (rangeStep (c :: t) 0).2)
          (by rw [List.length_drop]; simp only [List.length_cons] at hn ⊢; omega) hv
        rw [stringtoslicerune_cons]
        constructor
        · rw [slicerunetostring, henc, ih1, List.take_append_drop]
        · intro r hr
          rcases List.mem_cons.mp hr with h | h
          · rw [h]; exact hsc
          · exact ih2 r h

theorem map_sanitize_of_scalar (rs : List Nat) (h : ∀ r ∈ rs, isScalar r = true) :
    rs.map sanitize = rs := by
  induction rs with
  | nil => rfl
  | cons r rs ih =>
    rw [List.map_cons, ih (fun x hx => h x (List.mem_cons_of_mem _ hx))]
    have := h r (List.mem_cons_self _ _)
    simp only [sanitize, this, if_true]

/-! ## The reversal functions in closed form -/

theorem ReverseV2_eq (s : GoString) :
    ReverseV2 s = some (slicerunetostring (stringtoslicerune s).reverse) := by
  simp only [ReverseV2, reverseSlice_eq, Option.map_some']

theorem ReverseV3_of_valid (s : GoString) (h : ValidString s = true) :
    ReverseV3 s = some (slicerunetostring (stringtoslicerune s).reverse, none) := by
  simp only [ReverseV3, h, Bool.not_true, Bool.false_eq_true, if_false, reverseSlice_eq,
    Option.map_some']

theorem ReverseV3_of_invalid (s : GoString) (h : ValidString s = false) :
    ReverseV3 s = some (s, some ⟨"input is not valid UTF-8"⟩) := by
  simp only [ReverseV3, h, Bool.not_false, if_true]

theorem ValidString_slicerunetostring (rs : List Nat) :
    ValidString (slicerunetostring rs) = true := by
  rw [ValidString_eq]; exact validAll_slicerunetostring rs

theorem roundtrip_of_valid (s : GoString) (h : ValidString s = true) :
    slicerunetostring (stringtoslicerune s) = s
      ∧ ∀ r ∈ stringtoslicerune s, isScalar r = true := by
  rw [ValidString_eq] at h
  exact slicerunetostring_stringtoslicerune s.length s (Nat.le_refl _) h

/-- Decoding the reversal of a valid string gives the reversed runes. -/
theorem decode_reversed (s : GoString) (h : ValidString s = true) :
    stringtoslicerune (slicerunetostring (stringtoslicerune s).reverse)
      = (stringtoslicerune s).reverse := by
  rw [stringtoslicerune_slicerunetostring]
  apply map_sanitize_of_scalar
  intro r hr
  exact (roundtrip_of_valid s h).2 r (List.mem_reverse.mp hr)

theorem slicerunetostring_append (a b : List Nat) :
    slicerunetostring (a ++ b) = slicerunetostring a ++ slicerunetostring b := by
  induction a with
  | nil => rfl
  | cons r a ih =>
    show encoderune r ++ slicerunetostring (a ++ b) = _
    rw [ih, slicerunetostring, List.append_assoc]

theorem slicerunetostring_reverse_length (rs : List Nat) :
    (slicerunetostring rs.reverse).length = (slicerunetostring rs).length := by
  induction rs with
  | nil => rfl
  | cons r rs ih =>
    rw [List.reverse_cons, slicerunetostring_append, List.length_append, ih]
    simp only [slicerunetostring, List.length_append, List.append_nil]
    omega

theorem isUTF8_iff (s : GoString) : ValidString s = true ↔ IsUTF8 s := by
  constructor
  · intro h
    exact ⟨stringtoslicerune s, (roundtrip_of_valid s h).2, (roundtrip_of_valid s h).1⟩
  · rintro ⟨rs, _, rfl⟩
    exact ValidString_slicerunetostring rs

/-- The rune count of the output of `ReverseV2` is the rune count of its
input. -/
theorem count_reversed (b : GoString) :
    (stringtoslicerune (slicerunetostring (stringtoslicerune b).reverse)).length
      = (stringtoslicerune b).length := by
  rw [stringtoslicerune_slicerunetostring, List.length_map, List.length_reverse]

/-! ## The claims about `ReverseV3` -/

/-- C1: for every valid UTF-8 string `s`, `ReverseV3(s)` returns `(t, nil)` and
`ReverseV3(t)` returns `(s, nil)`: reversing twice gives back `s` byte for
byte. -/
theorem ReverseV3_involution (s : GoString) (h : ValidString s = true) :
    ∃ t u, ReverseV3 s = some (t, none) ∧ ReverseV3 t = some (u, none) ∧ u = s := by
  refine ⟨_, _, ReverseV3_of_valid s h,
    ReverseV3_of_valid _ (ValidString_slicerunetostring _), ?_⟩
  rw [decode_reversed s h, List.reverse_reverse]
  exact (roundtrip_of_valid s h).1

/-- Witness for C1: the six bytes of three code points of widths three, two and one. -/
theorem ReverseV3_involution_witness :
    ValidString [0xE6, 0xB3, 0x83, 0xC4, 0x9D, 0x61] = true
      ∧ ∃ t u, ReverseV3 [0xE6, 0xB3, 0x83, 0xC4, 0x9D, 0x61] = some (t, none)
        ∧ ReverseV3 t = some (u, none) ∧ u = [0xE6, 0xB3, 0x83, 0xC4, 0x9D, 0x61] :=
  ⟨by decide, ReverseV3_involution _ (by decide)⟩

/-- C2: `ReverseV3` returns a non-nil error exactly when `utf8.ValidString`
rejects its input, and a nil error exactly when it accepts it; the accepted
strings are exactly the encodings of sequences of Unicode scalar values, and
the empty string is one of them. -/
theorem ReverseV3_error_iff (s : GoString) :
    ((∃ t e, ReverseV3 s = some (t, some e)) ↔ ¬ IsUTF8 s)
      ∧ ((∃ t, ReverseV3 s = some (t, none)) ↔ IsUTF8 s)
      ∧ (IsUTF8 s ↔ ValidString s = true)
      ∧ ReverseV3 [] = some ([], none) := by
  refine ⟨?_, ?_, (isUTF8_iff s).symm, by decide⟩
  · rw [← isUTF8_iff]
    constructor
    · rintro ⟨t, e, h⟩ hv
      rw [ReverseV3_of_valid s hv] at h
      simp at h
    · intro hv
      exact ⟨s, _, ReverseV3_of_invalid s (by simpa using hv)⟩
  · rw [← isUTF8_iff]
    constructor
    · rintro ⟨t, h⟩
      by_contra hv
      rw [ReverseV3_of_invalid s (by simpa using hv)] at h
      simp at h
    · intro hv
      exact ⟨_, ReverseV3_of_valid s hv⟩

/-- C3: for every string that is not valid UTF-8, `ReverseV3` returns the
input itself, unchanged, together with the error. -/
theorem ReverseV3_invalid_unchanged (s : GoString) (h : ValidString s = false) :
    ReverseV3 s = some (s, some errInvalid) :=
  ReverseV3_of_invalid s h

/-- Witness for C3: a string with a stray continuation byte and a truncated sequence. -/
theorem ReverseV3_invalid_unchanged_witness :
    ValidString [0x61, 0x9F, 0xC4] = false
      ∧ ReverseV3 [0x61, 0x9F, 0xC4] = some ([0x61, 0x9F, 0xC4], some errInvalid) :=
  ⟨by decide, ReverseV3_invalid_unchanged _ (by decide)⟩

/-- C4: for every valid UTF-8 string `s`, `ReverseV3(s)` returns no error and
a string that decodes to the reverse of the code points of `s`; the string is
the encoding of that reversed sequence. -/
theorem ReverseV3_reverses_runes (s : GoString) (h : ValidString s = true) :
    ∃ t, ReverseV3 s = some (t, none)
      ∧ stringtoslicerune t = (stringtoslicerune s).reverse
      ∧ t = slicerunetostring (stringtoslicerune s).reverse :=
  ⟨_, ReverseV3_of_valid s h, decode_reversed s h, rfl⟩

/-- Witness for C4: an ASCII letter followed by a two byte code point. -/
theorem ReverseV3_reverses_runes_witness :
    ValidString [0x61, 0xC4, 0x9D] = true
      ∧ ∃ t, ReverseV3 [0x61, 0xC4, 0x9D] = some (t, none)
        ∧ stringtoslicerune t = (stringtoslicerune [0x61, 0xC4, 0x9D]).reverse
        ∧ t = slicerunetostring (stringtoslicerune [0x61, 0xC4, 0x9D]).reverse :=
  ⟨by decide, ReverseV3_reverses_runes _ (by decide)⟩

/-- C5: whenever `ReverseV3(s)` returns a nil error, the returned string is
valid UTF-8. -/
theorem ReverseV3_output_valid (s t : GoString) (h : ReverseV3 s = some (t, none)) :
    ValidString t = true := by
  by_cases hv : ValidString s = true
  · rw [ReverseV3_of_valid s hv] at h
    have e : slicerunetostring (stringtoslicerune s).reverse = t := by
      simpa using h
    rw [← e]
    exact ValidString_slicerunetostring _
  · rw [ReverseV3_of_invalid s (by simpa using hv)] at h
    simp at h

/-- Witness for C5: an ASCII letter followed by a two byte code point. -/
theorem ReverseV3_output_valid_witness :
    ReverseV3 [0x61, 0xC4, 0x9D] = some ([0xC4, 0x9D, 0x61], none)
      ∧ ValidString [0xC4, 0x9D, 0x61] = true :=
  ⟨by decide, ReverseV3_output_valid [0x61, 0xC4, 0x9D] [0xC4, 0x9D, 0x61] (by decide)⟩

/-- C6: for every valid UTF-8 string `s`, the string returned by
`ReverseV3(s)` has as many code points as `s` and as many bytes as `s`. -/
theorem ReverseV3_preserves_count (s : GoString) (h : ValidString s = true) :
    ∃ t, ReverseV3 s = some (t, none)
      ∧ (stringtoslicerune t).length = (stringtoslicerune s).length
      ∧ t.length = s.length := by
  refine ⟨_, ReverseV3_of_valid s h, ?_, ?_⟩
  · rw [decode_reversed s h, List.length_reverse]
  · rw [slicerunetostring_reverse_length, (roundtrip_of_valid s h).1]

/-- Witness for C6: a four byte code point followed by an ASCII letter. -/
theorem ReverseV3_preserves_count_witness :
    ValidString [0xF0, 0x9F, 0x98, 0x80, 0x61] = true
      ∧ ∃ t, ReverseV3 [0xF0, 0x9F, 0x98, 0x80, 0x61] = some (t, none)
        ∧ (stringtoslicerune t).length
          = (stringtoslicerune [0xF0, 0x9F, 0x98, 0x80, 0x61]).length
        ∧ t.length = [0xF0, 0x9F, 0x98, 0x80, 0x61].length :=
  ⟨by decide, ReverseV3_preserves_count _ (by decide)⟩

/-! ## The claims about `ReverseV2` and `ReverseV1` -/

/-- C7: for every byte string `s`, well-formed or not, `ReverseV2(s)` is valid
UTF-8. -/
theorem ReverseV2_output_valid (s : GoString) :
    ∃ t, ReverseV2 s = some t ∧ ValidString t = true :=
  ⟨_, ReverseV2_eq s, ValidString_slicerunetostring _⟩

/-- C8: for every byte string `s` that is not valid UTF-8, reversing twice with
`ReverseV2` gives a string different from `s`; for `s = "\x9f"` it gives the
encoding `EF BF BD` of U+FFFD. -/
theorem ReverseV2_twice_ne (s : GoString) (h : ValidString s = false) :
    ∃ t u, ReverseV2 s = some t ∧ ReverseV2 t = some u ∧ u ≠ s
      ∧ (s = [0x9F] → u = [0xEF, 0xBF, 0xBD]) := by
  refine ⟨_, _, ReverseV2_eq s, ReverseV2_eq _, ?_, ?_⟩
  · intro hu
    have hv := ValidString_slicerunetostring
      (stringtoslicerune (slicerunetostring (stringtoslicerune s).reverse)).reverse
    rw [hu, h] at hv
    exact absurd hv (by simp)
  · intro hs
    subst hs
    decide

/-- Witness for C8: the single stray continuation byte 9F. -/
theorem ReverseV2_twice_ne_witness :
    ValidString [0x9F] = false
      ∧ ∃ t u, ReverseV2 [0x9F] = some t ∧ ReverseV2 t = some u ∧ u ≠ [0x9F]
        ∧ (([0x9F] : GoString) = [0x9F] → u = [0xEF, 0xBF, 0xBD]) :=
  ⟨by decide, ReverseV2_twice_ne _ (by decide)⟩

/-- C9 as stated fails: no malformed byte string has a reversal by `ReverseV2`
whose rune count differs from the rune count of the string itself; for
`"\x9f"` both counts are one. -/
theorem ReverseV2_count_differs_counterexample :
    (¬ ∃ b t : GoString, ValidString b = false ∧ ReverseV2 b = some t
        ∧ (stringtoslicerune t).length ≠ (stringtoslicerune b).length)
      ∧ ValidString [0x9F] = false
      ∧ ReverseV2 [0x9F] = some [0xEF, 0xBF, 0xBD]
      ∧ (stringtoslicerune [0x9F]).length = 1
      ∧ (stringtoslicerune [0xEF, 0xBF, 0xBD]).length = 1 := by
  refine ⟨?_, by decide, by decide, by decide, by decide⟩
  rintro ⟨b, t, _, ht, hne⟩
  rw [ReverseV2_eq] at ht
  have e : slicerunetostring (stringtoslicerune b).reverse = t := Option.some.inj ht
  rw [← e] at hne
  exact hne (count_reversed b)

/-- C9 amended: for every byte string `b`, malformed or not, the rune count of
`ReverseV2(b)` equals the rune count of `b`; what differs on malformed input
is the byte length, one byte for `"\x9f"` against three for its reversal. -/
theorem ReverseV2_count_preserved :
    (∀ b : GoString, ∃ t, ReverseV2 b = some t
        ∧ (stringtoslicerune t).length = (stringtoslicerune b).length)
      ∧ ∃ t, ReverseV2 [0x9F] = some t ∧ t.length = 3 :=
  ⟨fun b => ⟨_, ReverseV2_eq b, count_reversed b⟩, ⟨_, ReverseV2_eq _, by decide⟩⟩

/-- C10: for every byte string `s` of length `n`, `ReverseV1(s)` has length `n`,
its byte at index `k` is the byte of `s` at index `n-1-k` for every `k < n`,
and it is the list reversal of `s`. -/
theorem ReverseV1_reverses_bytes (s : GoString) :
    ∃ t, ReverseV1 s = some t ∧ t.length = s.length
      ∧ (∀ k : Fin s.length, t[k.val]? = s[s.length - 1 - k.val]?)
      ∧ (∀ k : Fin s.length, ∃ c, t[k.val]? = some c)
      ∧ t = s.reverse := by
  refine ⟨s.reverse, reverseSlice_eq s, List.length_reverse s, ?_, ?_, rfl⟩
  · intro k
    exact List.getElem?_reverse k.isLt
  · intro k
    exact ⟨s.reverse.get ⟨k.val, by rw [List.length_reverse]; exact k.isLt⟩, by
      simp [List.getElem?_eq_getElem, k.isLt]⟩

/-! ## One code point, the ASCII scenarios, and the three functions compared -/

/-- A string that starts with a continuation byte is not valid UTF-8. -/
theorem ValidString_cont_cons (c : Byte) (t : GoString) (h : 128 ≤ c.val ∧ c.val < 192) :
    ValidString (c :: t) = false := by
  have hb : byteAt (c :: t) 0 = c.val := rfl
  rw [ValidString_eq, validAll_cons, validStep_zero,
    validArith_of_xx _ (byteAt (c :: t) 0) _ _ _ (by rw [hb]; exact h.1)
      (first_lo _ (by rw [hb]; omega) (by rw [hb]; exact h.1))]

/-- The bytes of a rune above `0x7F`, read backwards, are not valid UTF-8:
they start with a continuation byte. -/
theorem ValidString_reverse_encoderune (r : Nat) (h : 127 < r) :
    ValidString (encoderune r).reverse = false := by
  have hc : ∀ x : Nat, 128 ≤ (toByte (tx ||| ((x % 256) &&& maskx))).val
      ∧ (toByte (tx ||| ((x % 256) &&& maskx))).val < 192 := by
    intro x; rw [enc_cont]; omega
  have hcase : (127 < r ∧ r ≤ 2047) ∨ (1114111 < r ∨ (55296 ≤ r ∧ r ≤ 57343))
      ∨ (2047 < r ∧ r ≤ 65535 ∧ ¬ (55296 ≤ r ∧ r ≤ 57343)) ∨ (65535 < r ∧ r ≤ 1114111) := by
    omega
  rcases hcase with h | h | h | h
  · rw [encoderune_two r h]
    exact ValidString_cont_cons _ _ (hc r)
  · rw [encoderune_bad r h]
    exact ValidString_cont_cons _ _ (hc runeError)
  · rw [encoderune_three r h]
    exact ValidString_cont_cons _ _ (hc r)
  · rw [encoderune_four r h]
    exact ValidString_cont_cons _ _ (hc r)

/-- C11: for every string `s` that is valid UTF-8, holds exactly one code point
and is longer than one byte, `ReverseV3(s)` returns `(s, nil)`, while
`ReverseV1(s)` returns a string that differs from `s` and is not valid UTF-8;
for `"\xc4\x9d"` that string is `"\x9d\xc4"`. -/
theorem single_multibyte_rune (s : GoString) (hv : ValidString s = true)
    (h1 : (stringtoslicerune s).length = 1) (h2 : 1 < s.length) :
    ReverseV3 s = some (s, none)
      ∧ (∃ t, ReverseV1 s = some t ∧ t ≠ s ∧ ValidString t = false)
      ∧ ReverseV1 [0xC4, 0x9D] = some [0x9D, 0xC4] := by
  obtain ⟨r, hr⟩ := List.length_eq_one.mp h1
  have hs : slicerunetostring [r] = s := by
    rw [← hr]; exact (roundtrip_of_valid s hv).1
  have he : encoderune r = s := by
    rw [← hs]; simp only [slicerunetostring, List.append_nil]
  have hbig : 127 < (r : Nat) := by
    by_contra hle
    rw [← he, encoderune_one r (Nat.le_of_not_lt hle)] at h2
    simp at h2
  have hinv : ValidString s.reverse = false := by
    rw [← he]; exact ValidString_reverse_encoderune r hbig
  refine ⟨?_, ⟨s.reverse, reverseSlice_eq s, ?_, hinv⟩, by decide⟩
  · rw [ReverseV3_of_valid s hv, hr]
    simp only [List.reverse_singleton]
    rw [hs]
  · intro heq
    rw [heq, hv] at hinv
    exact absurd hinv (by simp)

/-- Witness for C11: the two bytes of U+011D. -/
theorem single_multibyte_rune_witness :
    ValidString [0xC4, 0x9D] = true
      ∧ (stringtoslicerune [0xC4, 0x9D]).length = 1
      ∧ 1 < ([0xC4, 0x9D] : GoString).length
      ∧ ReverseV3 [0xC4, 0x9D] = some ([0xC4, 0x9D], none)
      ∧ (∃ t, ReverseV1 [0xC4, 0x9D] = some t ∧ t ≠ [0xC4, 0x9D] ∧ ValidString t = false)
      ∧ ReverseV1 [0xC4, 0x9D] = some [0x9D, 0xC4] :=
  ⟨by decide, by decide, by decide,
    single_multibyte_rune [0xC4, 0x9D] (by decide) (by decide) (by decide)⟩

/-- C13: on every valid UTF-8 string `ReverseV3` returns the string of
`ReverseV2` with a nil error; `Reverse` is `ReverseV2`, so it returns the
string of `ReverseV3` exactly on valid input, and on invalid input it returns,
without any error, a valid string that is not the input, where `ReverseV3`
returns the input and the error. -/
theorem ReverseV3_refines_ReverseV2 (s : GoString) :
    ∃ t u e, ReverseV2 s = some t ∧ Reverse s = some t ∧ ReverseV3 s = some (u, e)
      ∧ (ValidString s = true → u = t ∧ e = none)
      ∧ (t = u ↔ ValidString s = true)
      ∧ (ValidString s = false →
          u = s ∧ e = some errInvalid ∧ t ≠ s ∧ ValidString t = true) := by
  by_cases hv : ValidString s = true
  · refine ⟨_, _, _, ReverseV2_eq s, ReverseV2_eq s, ReverseV3_of_valid s hv,
      fun _ => ⟨rfl, rfl⟩, ⟨fun _ => hv, fun _ => rfl⟩, ?_⟩
    intro hf
    rw [hv] at hf
    exact absurd hf (by simp)
  · have hf : ValidString s = false := by simpa using hv
    have hne : slicerunetostring (stringtoslicerune s).reverse ≠ s := by
      intro heq
      have := ValidString_slicerunetostring (stringtoslicerune s).reverse
      rw [heq, hf] at this
      exact absurd this (by simp)
    refine ⟨_, _, _, ReverseV2_eq s, ReverseV2_eq s, ReverseV3_of_invalid s hf,
      fun h => absurd h hv, ⟨fun h => absurd h hne, fun h => absurd h hv⟩, ?_⟩
    intro _
    exact ⟨rfl, rfl, hne, ValidString_slicerunetostring _⟩

/-- C14: `ReverseV1` applied twice gives back every byte string, valid UTF-8
or not; for `"\xc4\x9d"` the intermediate string is invalid and the rune
counts of original, reversal and double reversal are 1, 2 and 1. -/
theorem ReverseV1_involution :
    (∀ s : GoString, ∃ t, ReverseV1 s = some t ∧ ReverseV1 t = some s)
      ∧ ReverseV1 [0xC4, 0x9D] = some [0x9D, 0xC4]
      ∧ ReverseV1 [0x9D, 0xC4] = some [0xC4, 0x9D]
      ∧ ValidString [0x9D, 0xC4] = false
      ∧ (stringtoslicerune [0xC4, 0x9D]).length = 1
      ∧ (stringtoslicerune [0x9D, 0xC4]).length = 2 := by
  refine ⟨fun s => ⟨s.reverse, reverseSlice_eq s, ?_⟩, by decide, by decide, by decide,
    by decide, by decide⟩
  have h := reverseSlice_eq s.reverse
  rw [List.reverse_reverse] at h
  exact h

/-- Applying `ReverseV2` twice to a valid string gives the string back. -/
theorem ReverseV2_twice_of_valid (t : GoString) (h : ValidString t = true) :
    ReverseV2 (slicerunetostring (stringtoslicerune t).reverse) = some t := by
  rw [ReverseV2_eq, decode_reversed t h, List.reverse_reverse, (roundtrip_of_valid t h).1]

/-- C15: for every byte string `s`, applying `ReverseV2` three times gives the
same string as applying it once: `ReverseV2` applied twice fixes every output
of `ReverseV2`. -/
theorem ReverseV2_thrice (s : GoString) :
    ∃ t u, ReverseV2 s = some t ∧ ReverseV2 t = some u ∧ ReverseV2 u = some t := by
  exact ⟨_, _, ReverseV2_eq s, ReverseV2_eq _,
    ReverseV2_twice_of_valid _ (ValidString_slicerunetostring _)⟩

set_option maxRecDepth 100000 in
/-- C12: `ReverseV3("hello")` is `("olleh", nil)`, `ReverseV3` of the sentence
of `main` is its letter by letter reversal with a nil error, and `Reverse` on
the sentence gives the same reversal and, applied again, the sentence. -/
theorem ascii_scenarios :
    ReverseV3 strHello = some (strOlleh, none)
      ∧ ReverseV3 strFox = some (strFoxReversed, none)
      ∧ Reverse strFox = some strFoxReversed
      ∧ Reverse strFoxReversed = some strFox
      ∧ strOlleh = strHello.reverse
      ∧ strFoxReversed = strFox.reverse := by
  decide

/-! ## The iterations of the swap loop -/

/-- The result recorded by `swapRun` is the result of `swapLoop`. -/
theorem swapRun_snd {α : Type} (fuel : Nat) : ∀ st : SwapState α,
    (swapRun fuel st).2 = swapLoop fuel st := by
  induction fuel with
  | zero =>
    intro st
    simp only [swapRun, swapLoop]
    split <;> rfl
  | succ fuel ih =>
    intro st
    simp only [swapRun, swapLoop]
    split
    · cases swapBody st with
      | none => rfl
      | some st' => exact ih st'
    · rfl

/-- One iteration of the loop in the middle of a run: both indices are in
range, the body succeeds, and the slice moves one step further towards the
reversal. -/
theorem swapBody_step {α : Type} (orig b : List α) (m : Nat) (i j : Int)
    (hi : i = (m : Int)) (hj : j = (orig.length : Int) - 1 - m)
    (hlen : b.length = orig.length) (hlt : m < orig.length / 2)
    (hb : ∀ k, k < orig.length → b[k]? = swapped orig m k) :
    ∃ b2 : List α, swapBody (⟨b, i, j⟩ : SwapState α) = some ⟨b2, i + 1, j - 1⟩
      ∧ b2.length = orig.length
      ∧ ∀ k, k < orig.length → b2[k]? = swapped orig (m + 1) k := by
  have hit : i.toNat = m := by omega
  have hjt : j.toNat = orig.length - 1 - m := by omega
  have hbm : b[m]? = orig[m]? := by
    rw [hb m (by omega)]; unfold swapped; rw [if_neg (by omega)]
  have hbj : b[orig.length - 1 - m]? = orig[orig.length - 1 - m]? := by
    rw [hb _ (by omega)]; unfold swapped; rw [if_neg (by omega)]
  obtain ⟨x, hx⟩ : ∃ x, orig[m]? = some x :=
    ⟨orig.get ⟨m, by omega⟩, by simp [List.getElem?_eq_getElem, show m < orig.length by omega]⟩
  obtain ⟨y, hy⟩ : ∃ y, orig[orig.length - 1 - m]? = some y :=
    ⟨orig.get ⟨orig.length - 1 - m, by omega⟩, by
      simp [List.getElem?_eq_getElem, show orig.length - 1 - m < orig.length by omega]⟩
  refine ⟨(b.set m y).set (orig.length - 1 - m) x, ?_, by simp [hlen], ?_⟩
  · simp only [swapBody, hit, hjt, hbm, hbj, hx, hy, hlen]
    rw [if_pos (by omega)]
  · intro k hk
    rw [List.getElem?_set, List.getElem?_set]
    unfold swapped
    by_cases h1 : orig.length - 1 - m = k
    · rw [if_pos h1, if_pos (by simp [hlen]; omega), if_pos (by omega), ← hx]
      congr 1; omega
    · rw [if_neg h1]
      by_cases h2 : m = k
      · rw [if_pos h2, if_pos (by omega), if_pos (by omega), ← hy, h2]
      · rw [if_neg h2, hb k hk]
        unfold swapped
        by_cases h3 : k < m ∨ orig.length ≤ k + m
        · rw [if_pos h3, if_pos (by omega)]
        · rw [if_neg h3, if_neg (by omega)]

/-- The iterations of the swap loop from the state reached after `m`
iterations: there are `n/2 - m` of them, with `i` running over `m`, `m+1`, ...
and `j = n-1-i`, every one on a slice of length `n` and with a body that
succeeds. -/
theorem swapRun_spec {α : Type} (orig : List α) :
    ∀ (fuel m : Nat) (b : List α) (i j : Int), i = (m : Int) →
      j = (orig.length : Int) - 1 - m → b.length = orig.length →
      m ≤ orig.length / 2 → orig.length / 2 - m ≤ fuel →
      (∀ k, k < orig.length → b[k]? = swapped orig m k) →
      (swapRun fuel (⟨b, i, j⟩ : SwapState α)).1.map (fun st => (st.i, st.j))
          = (List.range' m (orig.length / 2 - m)).map
              (fun k : Nat => ((k : Int), (orig.length : Int) - 1 - (k : Int)))
        ∧ ∀ st ∈ (swapRun fuel (⟨b, i, j⟩ : SwapState α)).1,
            st.b.length = orig.length ∧ (swapBody st).isSome = true
              ∧ (orig.length % 2 = 1 → st.b[orig.length / 2]? = orig[orig.length / 2]?) := by
  intro fuel
  induction fuel with
  | zero =>
    intro m b i j hi hj hlen hm hfuel hb
    have hz : orig.length / 2 - m = 0 := by omega
    have hc : swapCond (⟨b, i, j⟩ : SwapState α) = false := by
      simp only [swapCond, hlen, decide_eq_false_iff_not]; omega
    simp only [swapRun, hc, hz]
    simp
  | succ fuel ih =>
    intro m b i j hi hj hlen hm hfuel hb
    by_cases hc : swapCond (⟨b, i, j⟩ : SwapState α) = true
    · have hlt : m < orig.length / 2 := by
        simp only [swapCond, hlen, decide_eq_true_eq] at hc; omega
      obtain ⟨b2, hbody, hlen2, hb2⟩ := swapBody_step orig b m i j hi hj hlen hlt hb
      obtain ⟨ih1, ih2⟩ := ih (m + 1) b2 (i + 1) (j - 1) (by omega) (by omega) hlen2
        (by omega) (by omega) hb2
      have hr : orig.length / 2 - m = (orig.length / 2 - (m + 1)) + 1 := by omega
      simp only [swapRun, hc, hbody, if_true]
      constructor
      · rw [List.map_cons, ih1, hr, List.range'_succ, List.map_cons, hi, hj]
      · intro st hst
        rcases List.mem_cons.mp hst with h | h
        · subst h
          refine ⟨hlen, by rw [hbody]; rfl, ?_⟩
          intro hodd
          show b[orig.length / 2]? = _
          rw [hb _ (by omega)]
          unfold swapped
          rw [if_neg (by omega)]
        · exact ih2 st h
    · have hcf : swapCond (⟨b, i, j⟩ : SwapState α) = false := by simpa using hc
      have hz : orig.length / 2 - m = 0 := by
        simp only [swapCond, hlen, decide_eq_false_iff_not] at hcf; omega
      simp only [swapRun, hcf, hz]
      simp

/-- A run that ended by the loop condition is the same under any larger bound
on the number of iterations. -/
theorem swapRun_more_fuel {α : Type} (fuel extra : Nat) : ∀ (st : SwapState α)
    (tr : List (SwapState α)) (r : List α), swapRun fuel st = (tr, some r) →
    swapRun (fuel + extra) st = (tr, some r) := by
  induction fuel with
  | zero =>
    intro st tr r h
    by_cases hc : swapCond st = true
    · simp [swapRun, hc] at h
    · have hcf : swapCond st = false := by simpa using hc
      simp only [swapRun, hcf] at h
      cases extra with
      | zero => simp only [Nat.add_zero, swapRun, hcf]; exact h
      | succ e => simp only [Nat.zero_add, swapRun, hcf]; exact h
  | succ fuel ih =>
    intro st tr r h
    rw [Nat.add_right_comm]
    by_cases hc : swapCond st = true
    · simp only [swapRun, hc, if_true] at h ⊢
      cases hb : swapBody st with
      | none => rw [hb] at h; simp at h
      | some st2 =>
        rw [hb] at h
        simp only at h ⊢
        have e1 : (swapRun fuel st2).2 = some r := congrArg Prod.snd h
        have e2 : swapRun fuel st2 = ((swapRun fuel st2).1, some r) := by
          rw [← e1]
        have e0 : st :: (swapRun fuel st2).1 = tr := congrArg Prod.fst h
        rw [ih st2 _ r e2]
        show (st :: (swapRun fuel st2).1, some r) = (tr, some r)
        rw [e0]
    · have hcf : swapCond st = false := by simpa using hc
      simp only [swapRun, hcf] at h ⊢
      exact h

/-- C16: on every slice of length `n` the swap loop of `ReverseV1`, `ReverseV2`
and `ReverseV3` ends by its condition after exactly `n/2` iterations, whatever
bound of at least `n/2` is put on it; in iteration `k` the indices are `i = k`
and `j = n-1-k`, so `0 ≤ i < j ≤ n-1`, the slice still has length `n` and the
body succeeds without an index out of range; for odd `n` no iteration touches
the middle index and the middle element stays where it was. -/
theorem swap_loop_safe {α : Type} (b : List α) :
    ∃ tr : List (SwapState α),
      (∀ extra, swapRun (b.length / 2 + extra) ⟨b, 0, (b.length : Int) - 1⟩
          = (tr, some b.reverse))
      ∧ swapRun b.length ⟨b, 0, (b.length : Int) - 1⟩ = (tr, reverseSlice b)
      ∧ tr.length = b.length / 2
      ∧ tr.map (fun st => (st.i, st.j))
          = (List.range (b.length / 2)).map
              (fun k : Nat => ((k : Int), (b.length : Int) - 1 - (k : Int)))
      ∧ (∀ st ∈ tr, st.b.length = b.length ∧ st.j = (b.length : Int) - 1 - st.i
          ∧ 0 ≤ st.i ∧ st.i < st.j ∧ st.j ≤ (b.length : Int) - 1
          ∧ (swapBody st).isSome = true
          ∧ (b.length % 2 = 1 → st.i ≠ (b.length / 2 : Nat) ∧ st.j ≠ (b.length / 2 : Nat)
              ∧ st.b[b.length / 2]? = b[b.length / 2]?))
      ∧ (b.length % 2 = 1 → b.reverse[b.length / 2]? = b[b.length / 2]?) := by
  have hinit : ∀ k, k < b.length → b[k]? = swapped b 0 k := by
    intro k hk
    unfold swapped
    rw [if_neg (by omega)]
  have hres : ∀ fuel, b.length / 2 ≤ fuel →
      (swapRun fuel (⟨b, 0, (b.length : Int) - 1⟩ : SwapState α)).2 = some b.reverse := by
    intro fuel hf
    rw [swapRun_snd]
    exact swapLoop_spec b fuel 0 b 0 _ rfl (by simp) rfl (by omega) (by omega) hinit
  obtain ⟨hidx, hmem⟩ := swapRun_spec b (b.length / 2) 0 b 0 ((b.length : Int) - 1) rfl
    (by simp) rfl (by omega) (by omega) hinit
  have hrun : swapRun (b.length / 2) (⟨b, 0, (b.length : Int) - 1⟩ : SwapState α)
      = ((swapRun (b.length / 2) (⟨b, 0, (b.length : Int) - 1⟩ : SwapState α)).1,
          some b.reverse) := by
    rw [← hres (b.length / 2) (Nat.le_refl _)]
  rw [Nat.sub_zero, ← List.range_eq_range'] at hidx
  refine ⟨(swapRun (b.length / 2) (⟨b, 0, (b.length : Int) - 1⟩ : SwapState α)).1,
    fun extra => swapRun_more_fuel _ extra _ _ _ hrun, ?_, ?_, hidx, ?_, ?_⟩
  · have h := swapRun_more_fuel (b.length / 2) (b.length - b.length / 2) _ _ _ hrun
    rw [show b.length / 2 + (b.length - b.length / 2) = b.length by omega] at h
    rw [h, reverseSlice_eq]
  · have h := congrArg List.length hidx
    simpa using h
  · intro st hst
    obtain ⟨h1, h2, h3⟩ := hmem st hst
    have hp : (st.i, st.j) ∈ (List.range (b.length / 2)).map
        (fun k : Nat => ((k : Int), (b.length : Int) - 1 - (k : Int))) := by
      rw [← hidx]
      exact List.mem_map_of_mem _ hst
    obtain ⟨k, hk, hkeq⟩ := List.mem_map.mp hp
    have hk2 : k < b.length / 2 := List.mem_range.mp hk
    have hi : (k : Int) = st.i := congrArg Prod.fst hkeq
    have hj : (b.length : Int) - 1 - (k : Int) = st.j := congrArg Prod.snd hkeq
    refine ⟨h1, by omega, by omega, by omega, by omega, h2, ?_⟩
    intro hodd
    exact ⟨by omega, by omega, h3 hodd⟩
  · intro hodd
    rw [List.getElem?_reverse (by omega)]
    congr 1
    omega

end GoFuzz
